import Mathlib

/-!
Verification of the exercises of the repository against their specification

The repository is a set of independent single-function programs.  Each one is
embedded as Lean functions in a namespace of its own:

* `FindMin` -- `findMin` (src/findminusingBS.cpp), the search for the minimum
  of a rotated non-decreasing vector;
* `LongestSubstr` -- `helper` (src/example.cpp), the longest substring without
  a repeated character;
* `BinStr` -- `suma` and `isGreater` (src/7.cpp), addition and comparison of
  binary numerals held in strings;
* `Nger` -- the stack scan for the next greater element (src/stack/nger.cpp);
* `Defeat` -- `Solution::Defeating` (src/5.cpp), the greedy fight order;
* `ArrayGen` -- `Solution::ArrayGeneration` (src/2.cpp).

All definitions come first, the theorems follow in the same order.

Modelling conventions.

* `vector<int>` is a `List Int` and `string` a `List Char`.  C++ `int`
  variables are unbounded integers (`Int`, or `Nat` where the program keeps
  them non-negative), with `/` and `%` rendered by the truncating `Int.tdiv`
  and `Int.tmod`.  In `findMin` the largest intermediate value is
  `mid + n - 1 ≤ 2 * n - 2`, so the model agrees with 32-bit `int` arithmetic
  for every vector of at most `2 ^ 30` elements; the other programs are
  modelled on the assumption that no `int` overflows.
* In `findMin`, `nums[i]` is an unchecked read in C++.  The model reads through
  `readAt`, which answers `none` outside `[0, n)`; a read that fails makes the
  whole call end in `Outcome.fault`.  So an outcome other than `fault` says
  that every index the call read was in bounds.  In the other programs every
  index is guarded by the code itself (`i < a.size()`, `2*i <= n`, `i < n`
  with arrays of length `n`), and the reads are total list operations.
* The `while` loop of `findMin` is a function that recurses on a fuel argument;
  `findMin` supplies `n + 1` units and `Outcome.diverge` marks exhaustion.  The
  theorems below show that this outcome never occurs.  `Run.iters` counts how
  many times the loop body was entered.  The `for` loops of the other programs
  have a fixed number of iterations and are structural recursions or folds.
* `std::sort` on pairs is modelled by insertion sort with the lexicographic
  order of `pair<int,int>`; that order is total, so every sorting algorithm
  returns the same vector.  `unordered_map<char,int>` is a function
  `Char → Option Int`.
-/

namespace FindMin

/-- How a call ends: a returned `int`, an out-of-bounds read, or fuel exhaustion. -/
inductive Outcome where
  | value (r : Int)
  | fault
  | diverge
  deriving DecidableEq, Repr

/-- The observable behaviour of one call: its outcome and the number of
executions of the loop body. -/
structure Run where
  result : Outcome
  iters : Nat
  deriving DecidableEq, Repr

/-- Checked read of `nums[i]` for a C++ `int` index `i`. -/
def readAt (nums : List Int) (i : Int) : Option Int :=
  if i < 0 then none else nums[i.toNat]?

/-- The pivot test `nums[mid] <= nums[next] && nums[mid] <= nums[prev]` of line 16,
with `next = (mid+1)%n` and `prev = (mid+n-1)%n` (lines 14-15).  `&&` is
short-circuiting, so `nums[prev]` is read only when the first comparison holds. -/
def pivotTest (nums : List Int) (n mid : Int) : Option Bool :=
  let next := (mid + 1).tmod n
  let prev := (mid + n - 1).tmod n
  match readAt nums mid, readAt nums next with
  | some vm, some vn =>
    if vm ≤ vn then
      match readAt nums prev with
      | some vp => some (decide (vm ≤ vp))
      | none => none
    else some false
  | _, _ => none

/-- The `while (start <= end)` loop of lines 11-26 followed by `return -1`
(line 27).  `cnt` is the number of loop bodies executed so far. -/
def searchLoop (nums : List Int) (n : Int) : Nat → Int → Int → Nat → Run
  | 0, _, _, cnt => ⟨Outcome.diverge, cnt⟩
  | fuel + 1, start, end_, cnt =>
    if start ≤ end_ then
      let mid := start + (end_ - start).tdiv 2
      match pivotTest nums n mid with
      | none => ⟨Outcome.fault, cnt + 1⟩
      | some true => ⟨Outcome.value mid, cnt + 1⟩
      | some false =>
        match readAt nums end_, readAt nums mid with
        | some ve, some vm =>
          if ve < vm then searchLoop nums n fuel (mid + 1) end_ (cnt + 1)
          else searchLoop nums n fuel start (mid - 1) (cnt + 1)
        | _, _ => ⟨Outcome.fault, cnt + 1⟩
    else ⟨Outcome.value (-1), cnt⟩

/-- The function `findMin` of lines 3-28. -/
def findMin (nums : List Int) : Run :=
  let n : Int := nums.length
  let start : Int := 0
  let end_ : Int := n - 1
  match readAt nums start, readAt nums end_ with
  | some vs, some ve =>
    if vs < ve then ⟨Outcome.value 0, 0⟩
    else searchLoop nums n (nums.length + 1) start end_ 0
  | _, _ => ⟨Outcome.fault, 0⟩

/-- A rotation of a non-decreasing sequence: `s` shifted cyclically by `k`. -/
def IsRotatedSorted (nums : List Int) : Prop :=
  ∃ (s : List Int) (k : Nat), List.Sorted (· ≤ ·) s ∧ nums = s.rotate k

/-- The value stored at index `i` (`0` outside the vector); used to speak about
elements once an index is known to be in bounds. -/
def valAt (nums : List Int) (i : Int) : Int :=
  nums.getD i.toNat 0

/-- Circular successor of index `i` in a vector of length `n`. -/
def nextIdx (n i : Int) : Int := if i + 1 = n then 0 else i + 1

/-- Circular predecessor of index `i` in a vector of length `n`. -/
def prevIdx (n i : Int) : Int := if i = 0 then n - 1 else i - 1

/-- Bound on the number of loop iterations for a window of `k` indices:
`0` for the empty window, `⌊log₂ k⌋ + 1` otherwise. -/
def iterBound (k : Nat) : Nat := if k = 0 then 0 else Nat.log 2 k + 1

end FindMin

/-! ## `helper` (src/example.cpp): longest substring without a repeated character -/

namespace LongestSubstr

/-- The variables of `helper` that live across loop iterations: `ans`, `l` and
the map `lastidx` (an absent key is `none`). -/
structure Window where
  ans : Int
  l : Int
  lastidx : Char → Option Int

/-- One execution of the loop body (lines 11-15) for index `r` and `c = s[r]`. -/
def step (st : Window) (r : Int) (c : Char) : Window :=
  let l := match st.lastidx c with
    | some j => if j ≥ st.l then j + 1 else st.l
    | none => st.l
  { ans := max st.ans (r - l + 1)
    l := l
    lastidx := fun d => if d = c then some r else st.lastidx d }

/-- The `for` loop of lines 10-16 on the characters still to be read, `r` being
the index of the first of them. -/
def helperLoop : List Char → Int → Window → Window
  | [], _, st => st
  | c :: cs, r, st => helperLoop cs (r + 1) (step st r c)

/-- The function `helper` of src/example.cpp, lines 5-18. -/
def helper (s : List Char) : Int :=
  (helperLoop s 0 ⟨0, 0, fun _ => none⟩).ans

/-- No character occurs twice among the positions `a .. b-1` of `s`. -/
def NoRep (s : List Char) (a b : Nat) : Prop :=
  ∀ i j : Nat, a ≤ i → i < j → j < b → s[i]? ≠ s[j]?

/-- The loop invariant after the first `r` characters: `l` starts the longest
repetition-free window ending at `r`, `lastidx` holds the last position of
every character seen, and `ans` is the largest repetition-free window so far. -/
def Inv (s : List Char) (r : Nat) (st : Window) : Prop :=
  ∃ ln : Nat, st.l = ln ∧ ln ≤ r ∧
    (∀ c j, st.lastidx c = some j →
      ∃ jn : Nat, j = jn ∧ jn < r ∧ s[jn]? = some c ∧ ∀ k, jn < k → k < r → s[k]? ≠ some c) ∧
    (∀ c, st.lastidx c = none → ∀ k, k < r → s[k]? ≠ some c) ∧
    NoRep s ln r ∧
    (∀ a, a < ln → ¬ NoRep s a r) ∧
    (∀ a b, a ≤ b → b ≤ r → NoRep s a b → ((b - a : Nat) : Int) ≤ st.ans) ∧
    (∃ a b, a ≤ b ∧ b ≤ r ∧ NoRep s a b ∧ st.ans = ((b - a : Nat) : Int))

end LongestSubstr

/-! ## `suma` and `isGreater` (src/7.cpp): binary numerals as strings -/

namespace BinStr

/-- The expression `c - '0'` of lines 13-14, an `int`. -/
def digitOf (c : Char) : Int := (c.toNat : Int) - 48

/-- The expression `v + '0'` of line 17 converted to the `char` that
`push_back` stores. -/
def charOf (v : Int) : Char := Char.ofNat (v + 48).toNat

/-- The `for` loop of lines 12-19 on the reversed strings `a` and `b`: `k`
iterations remain, `i` is the loop index.  It returns `res` and `carry`. -/
def sumaLoop (a b : List Char) : Nat → Nat → Int → List Char → List Char × Int
  | 0, _, carry, res => (res, carry)
  | k + 1, i, carry, res =>
    let x : Int := match a[i]? with
      | some c => digitOf c
      | none => 0
    let y : Int := match b[i]? with
      | some c => digitOf c
      | none => 0
    let sum := x + y + carry
    sumaLoop a b k (i + 1) (sum.tdiv 2) (res ++ [charOf (sum.tmod 2)])

/-- The function `suma` of src/7.cpp, lines 4-25. -/
def suma (a b : List Char) : List Char :=
  let ra := a.reverse
  let rb := b.reverse
  let n := max ra.length rb.length
  let out := sumaLoop ra rb n 0 0 []
  let res := if out.2 ≠ 0 then out.1 ++ ['1'] else out.1
  res.reverse

/-- The comparison `a > b` of `std::string`: lexicographic on the character
codes, a proper prefix being smaller. -/
def strGt : List Char → List Char → Bool
  | [], _ => false
  | _ :: _, [] => true
  | x :: xs, y :: ys =>
    if y.toNat < x.toNat then true
    else if x.toNat < y.toNat then false
    else strGt xs ys

/-- The function `isGreater` of src/7.cpp, lines 28-32. -/
def isGreater (a b : List Char) : Bool :=
  if a.length ≠ b.length then decide (b.length < a.length)
  else strGt a b

/-- Value of one binary digit character. -/
def bitOf (c : Char) : Nat := if c = '1' then 1 else 0

/-- Value of a string read as a binary numeral, most significant digit first. -/
def binVal (s : List Char) : Nat := s.foldl (fun v c => 2 * v + bitOf c) 0

/-- Value of a digit list read least significant digit first. -/
def valLE : List Char → Nat
  | [] => 0
  | c :: cs => bitOf c + 2 * valLE cs

/-- A string over the characters `'0'` and `'1'`. -/
def IsBinary (s : List Char) : Prop := ∀ c ∈ s, c = '0' ∨ c = '1'

/-- A binary numeral without leading zero: `"0"` itself or a string that starts with `'1'`. -/
def IsCanonical (s : List Char) : Prop := s = ['0'] ∨ s.head? = some '1'

end BinStr

/-! ## The next-greater-element scan (src/stack/nger.cpp) -/

namespace Nger

/-- The inner loop `while(!st.empty() && st.top()<=arr[i]) st.pop();` of lines
17-19.  The head of the list is the top of the stack. -/
def popWhile (x : Int) : List Int → List Int
  | [] => []
  | t :: st => if t ≤ x then popWhile x st else t :: st

/-- One execution of the body of the `for` loop (lines 10-27) for `arr[i] = x`,
acting on the pair of the stack `st` and the vector `res`. -/
def ngerStep (x : Int) (s : List Int × List Int) : List Int × List Int :=
  match s.1 with
  | [] => ([x], s.2 ++ [-1])
  | t :: st =>
    if t > x then (x :: t :: st, s.2 ++ [t])
    else
      match popWhile x (t :: st) with
      | [] => ([x], s.2 ++ [-1])
      | u :: st2 => (x :: u :: st2, s.2 ++ [u])

/-- The scan of `main` in src/stack/nger.cpp (lines 6-29) as a function of
`arr`: the loop runs from the last index down to 0, then `res` is reversed. -/
def nger (arr : List Int) : List Int :=
  (arr.foldr ngerStep ([], [])).2.reverse

/-- Content of the stack after the scan of `arr` (top first). -/
def stackOf : List Int → List Int
  | [] => []
  | x :: xs => x :: popWhile x (stackOf xs)

/-- First element to the right that is strictly greater, or `-1`, for every position. -/
def firstGreater : List Int → List Int
  | [] => []
  | x :: xs => ((xs.find? (fun y => decide (x < y))).getD (-1)) :: firstGreater xs

end Nger

/-! ## `Solution::Defeating` (src/5.cpp): the greedy fight order -/

namespace Defeat

/-- The order in which `std::sort` arranges `pair<int,int>` values: `operator<`
on pairs is lexicographic; this is its reflexive closure. -/
@[reducible] def pairLe (p q : Int × Int) : Prop :=
  p.1 < q.1 ∨ (p.1 = q.1 ∧ p.2 ≤ q.2)

/-- The vector `res` after the first loop (lines 9-11): the pairs
`{poweri[i], bonusi[i]}` for `i = 0 .. n-1`. -/
def buildPairs (n : Int) (poweri bonusi : List Int) : List (Int × Int) :=
  (List.range n.toNat).map fun i => (poweri.getD i 0, bonusi.getD i 0)

/-- The second loop (lines 14-24) over the sorted pairs, with the running `exp`
and counter `c`; `break` ends it at the first enemy that is too strong. -/
def fightLoop : List (Int × Int) → Int → Int → Int
  | [], _, c => c
  | p :: rest, exp, c => if p.1 ≤ exp then fightLoop rest (exp + p.2) (c + 1) else c

/-- The function `Solution::Defeating` of src/5.cpp, lines 6-26.  The pairs are
ordered by a total order, so the sorted vector is the same for every sorting
algorithm; insertion sort stands for `std::sort`. -/
def Defeating (n exp : Int) (poweri bonusi : List Int) : Int :=
  fightLoop ((buildPairs n poweri bonusi).insertionSort pairLe) exp 0

/-- A sequence of fights, each enemy given as (power, bonus), that can be
carried out in this order starting with experience `exp`. -/
def canDefeat : Int → List (Int × Int) → Prop
  | _, [] => True
  | exp, p :: rest => p.1 ≤ exp ∧ canDefeat (exp + p.2) rest

/-- The sequence `seq` without the first occurrence of the fight `p`. -/
def removeOne {α : Type} [DecidableEq α] (p : α) : List α → List α
  | [] => []
  | q :: t => if q = p then t else q :: removeOne p t

end Defeat

/-! ## `Solution::ArrayGeneration` (src/2.cpp) -/

namespace ArrayGen

/-- One execution of the loop body of lines 14-19 for the loop index `i`. -/
def genStep (n : Nat) (ans : List Int) (i : Nat) : List Int :=
  let ans1 := if 2 * i ≤ n then ans.set (2 * i) (ans.getD i 0) else ans
  if 2 * i + 1 ≤ n then ans1.set (2 * i + 1) (ans1.getD i 0 + ans1.getD (i + 1) 0)
  else ans1

/-- The function `Solution::ArrayGeneration` of src/2.cpp, lines 6-22. -/
def ArrayGeneration (n : Nat) : List Int :=
  let ans := List.replicate (n + 1) 0
  if n = 0 then ans
  else (List.range' 1 (n / 2)).foldl (genStep n) (ans.set 1 1)

/-- State of the array after the iterations `1 .. k`. -/
def GenInv (n k : Nat) (ans : List Int) : Prop :=
  ans.length = n + 1 ∧ ans.getD 0 0 = 0 ∧ ans.getD 1 0 = 1 ∧
  ∀ j, 1 ≤ j → j ≤ k →
    (2 * j ≤ n → ans.getD (2 * j) 0 = ans.getD j 0) ∧
    (2 * j + 1 ≤ n → ans.getD (2 * j + 1) 0 = ans.getD j 0 + ans.getD (j + 1) 0)

end ArrayGen

/-! ## Theorems about `findMin` -/

namespace FindMin

/-! ## Basic facts about reads and index arithmetic -/

theorem readAt_inBounds (nums : List Int) (i : Int) (h0 : 0 ≤ i)
    (h1 : i < nums.length) : readAt nums i = some (valAt nums i) := by
  have hlt : i.toNat < nums.length := by omega
  unfold readAt valAt
  rw [if_neg (by omega), List.getElem?_eq_getElem hlt, List.getD_eq_getElem _ _ hlt]

theorem tmod_next (n mid : Int) (h0 : 0 ≤ mid) (h1 : mid < n) :
    (mid + 1).tmod n = nextIdx n mid := by
  rw [Int.tmod_eq_emod (by omega) (by omega)]
  unfold nextIdx
  split
  · next h => rw [h, Int.emod_self]
  · next h => exact Int.emod_eq_of_lt (by omega) (by omega)

theorem tmod_prev (n mid : Int) (h0 : 0 ≤ mid) (h1 : mid < n) :
    (mid + n - 1).tmod n = prevIdx n mid := by
  rw [Int.tmod_eq_emod (by omega) (by omega)]
  unfold prevIdx
  split
  · next h =>
    have e : mid + n - 1 = n - 1 := by omega
    rw [e]
    exact Int.emod_eq_of_lt (by omega) (by omega)
  · next h =>
    have e : mid + n - 1 = (mid - 1) + n := by ring
    rw [e, Int.add_emod_self]
    exact Int.emod_eq_of_lt (by omega) (by omega)

theorem nextIdx_range (n i : Int) (h0 : 0 ≤ i) (h1 : i < n) :
    0 ≤ nextIdx n i ∧ nextIdx n i < n := by
  unfold nextIdx; split <;> omega

theorem prevIdx_range (n i : Int) (h0 : 0 ≤ i) (h1 : i < n) :
    0 ≤ prevIdx n i ∧ prevIdx n i < n := by
  unfold prevIdx; split <;> omega

/-- In bounds, the pivot test is the comparison of `nums[mid]` with its two
circular neighbours. -/
theorem pivotTest_inBounds (nums : List Int) (mid : Int) (h0 : 0 ≤ mid)
    (h1 : mid < nums.length) :
    pivotTest nums nums.length mid =
      some (decide (valAt nums mid ≤ valAt nums (nextIdx nums.length mid) ∧
        valAt nums mid ≤ valAt nums (prevIdx nums.length mid))) := by
  have hn := nextIdx_range _ _ h0 h1
  have hp := prevIdx_range _ _ h0 h1
  unfold pivotTest
  simp only [tmod_next _ _ h0 h1, tmod_prev _ _ h0 h1, readAt_inBounds _ _ h0 h1,
    readAt_inBounds _ _ hn.1 hn.2, readAt_inBounds _ _ hp.1 hp.2]
  by_cases c : valAt nums mid ≤ valAt nums (nextIdx nums.length mid)
  · simp [c]
  · simp [c]

theorem mid_range (s e : Int) (h : s ≤ e) :
    s ≤ s + (e - s).tdiv 2 ∧ s + (e - s).tdiv 2 ≤ e ∧
      2 * (s + (e - s).tdiv 2) ≤ s + e ∧ s + e ≤ 2 * (s + (e - s).tdiv 2) + 1 := by
  rw [Int.tdiv_eq_ediv (by omega) (by omega)]
  omega

/-- One loop iteration with every read in bounds. -/
theorem searchLoop_step (nums : List Int) (fuel : Nat) (s e : Int) (cnt : Nat)
    (h0 : 0 ≤ s) (hse : s ≤ e) (h1 : e < nums.length) :
    searchLoop nums nums.length (fuel + 1) s e cnt =
      if valAt nums (s + (e - s).tdiv 2) ≤
            valAt nums (nextIdx nums.length (s + (e - s).tdiv 2)) ∧
          valAt nums (s + (e - s).tdiv 2) ≤
            valAt nums (prevIdx nums.length (s + (e - s).tdiv 2))
      then ⟨Outcome.value (s + (e - s).tdiv 2), cnt + 1⟩
      else if valAt nums e < valAt nums (s + (e - s).tdiv 2)
        then searchLoop nums nums.length fuel (s + (e - s).tdiv 2 + 1) e (cnt + 1)
        else searchLoop nums nums.length fuel s (s + (e - s).tdiv 2 - 1) (cnt + 1) := by
  have hm := mid_range s e hse
  have hm0 : 0 ≤ s + (e - s).tdiv 2 := by omega
  have hm1 : s + (e - s).tdiv 2 < nums.length := by omega
  rw [searchLoop, if_pos hse]
  simp only [pivotTest_inBounds _ _ hm0 hm1, readAt_inBounds _ _ hm0 hm1,
    readAt_inBounds _ _ (by omega : 0 ≤ e) h1]
  by_cases hp : valAt nums (s + (e - s).tdiv 2) ≤
        valAt nums (nextIdx nums.length (s + (e - s).tdiv 2)) ∧
      valAt nums (s + (e - s).tdiv 2) ≤
        valAt nums (prevIdx nums.length (s + (e - s).tdiv 2))
  · rw [if_pos hp, decide_eq_true hp]
  · rw [if_neg hp, decide_eq_false hp]

/-- The loop leaves through `return -1` exactly when `start > end`. -/
theorem searchLoop_exit (nums : List Int) (n : Int) (fuel : Nat) (s e : Int) (cnt : Nat)
    (hse : ¬ s ≤ e) :
    searchLoop nums n (fuel + 1) s e cnt = ⟨Outcome.value (-1), cnt⟩ := by
  rw [searchLoop, if_neg hse]

/-- On a non-empty vector both reads of line 7 are in bounds. -/
theorem findMin_nonempty (nums : List Int) (hne : nums ≠ []) :
    findMin nums =
      if valAt nums 0 < valAt nums ((nums.length : Int) - 1) then ⟨Outcome.value 0, 0⟩
      else searchLoop nums nums.length (nums.length + 1) 0 ((nums.length : Int) - 1) 0 := by
  have hpos : 0 < nums.length := List.length_pos.mpr hne
  unfold findMin
  simp only [readAt_inBounds nums 0 (le_refl 0) (by omega),
    readAt_inBounds nums ((nums.length : Int) - 1) (by omega) (by omega)]

/-! ## Memory safety and termination of the loop -/

/-- From any state with `0 ≤ start`, `end < n` and enough fuel the loop returns
`-1` or an index between `start` and `end`: no read faults and the fuel suffices. -/
theorem searchLoop_safe (nums : List Int) :
    ∀ (fuel : Nat) (s e : Int) (cnt : Nat), 0 ≤ s → e < nums.length → s ≤ e + 1 →
      e - s + 1 < fuel →
      ∃ r, (searchLoop nums nums.length fuel s e cnt).result = Outcome.value r ∧
        (r = -1 ∨ (s ≤ r ∧ r ≤ e)) := by
  intro fuel
  induction fuel with
  | zero => intro s e cnt _ _ h3 h4; exfalso; simp at h4; omega
  | succ fuel ih =>
    intro s e cnt h0 h1 h3 h4
    by_cases hse : s ≤ e
    · have hm := mid_range s e hse
      rw [searchLoop_step nums fuel s e cnt h0 hse h1]
      split_ifs with hp hd
      · exact ⟨_, rfl, Or.inr ⟨hm.1, hm.2.1⟩⟩
      · obtain ⟨r, hr, hr2⟩ := ih (s + (e - s).tdiv 2 + 1) e (cnt + 1) (by omega) h1
          (by omega) (by push_cast at h4; omega)
        exact ⟨r, hr, by omega⟩
      · obtain ⟨r, hr, hr2⟩ := ih s (s + (e - s).tdiv 2 - 1) (cnt + 1) h0 (by omega)
          (by omega) (by push_cast at h4; omega)
        exact ⟨r, hr, by omega⟩
    · rw [searchLoop_exit nums _ fuel s e cnt hse]
      exact ⟨-1, rfl, Or.inl rfl⟩

/-! ## Constant vectors -/

/-- When every element equals `nums[0]`, the first probe passes the pivot test. -/
theorem findMin_const (nums : List Int) (hne : nums ≠ [])
    (hc : ∀ i : Int, 0 ≤ i → i < nums.length → valAt nums i = valAt nums 0) :
    findMin nums = ⟨Outcome.value (((nums.length : Int) - 1) / 2), 1⟩ := by
  have hpos : 0 < nums.length := List.length_pos.mpr hne
  have hm := mid_range 0 ((nums.length : Int) - 1) (by omega)
  have hmid : (0 : Int) + ((nums.length : Int) - 1 - 0).tdiv 2 = ((nums.length : Int) - 1) / 2 := by
    rw [Int.tdiv_eq_ediv (by omega) (by omega)]; simp
  rw [hmid] at hm
  have hn := nextIdx_range nums.length (((nums.length : Int) - 1) / 2) (by omega) (by omega)
  have hq := prevIdx_range nums.length (((nums.length : Int) - 1) / 2) (by omega) (by omega)
  have h1 : ¬ valAt nums 0 < valAt nums ((nums.length : Int) - 1) := by
    have := hc ((nums.length : Int) - 1) (by omega) (by omega)
    omega
  have h2 : valAt nums (((nums.length : Int) - 1) / 2) ≤
        valAt nums (nextIdx nums.length (((nums.length : Int) - 1) / 2)) ∧
      valAt nums (((nums.length : Int) - 1) / 2) ≤
        valAt nums (prevIdx nums.length (((nums.length : Int) - 1) / 2)) := by
    have e1 := hc (((nums.length : Int) - 1) / 2) (by omega) (by omega)
    have e2 := hc _ hn.1 hn.2
    have e3 := hc _ hq.1 hq.2
    constructor <;> omega
  rw [findMin_nonempty nums hne, if_neg h1,
    searchLoop_step nums _ 0 _ 0 (le_refl 0) (by omega) (by omega), hmid, if_pos h2]

/-! ## The loop on a rotated non-decreasing vector -/

/-- A window lying inside a run of equal values that also equals the last
element: the next probe passes the pivot test. -/
theorem searchLoop_plateau (nums : List Int) (q : Int) (hq : q < nums.length)
    (hflat : ∀ i : Int, 0 ≤ i → i ≤ q → valAt nums i = valAt nums 0)
    (hlast : valAt nums ((nums.length : Int) - 1) = valAt nums 0)
    (fuel : Nat) (s e : Int) (cnt : Nat) (h0 : 0 ≤ s) (hse : s ≤ e) (he : e < q) :
    ∃ i, (searchLoop nums nums.length (fuel + 1) s e cnt).result = Outcome.value i ∧
      0 ≤ i ∧ i < nums.length ∧ pivotTest nums nums.length i = some true := by
  have hm := mid_range s e hse
  rw [searchLoop_step nums fuel s e cnt h0 hse (by omega)]
  generalize s + (e - s).tdiv 2 = m at hm ⊢
  have hnx : nextIdx nums.length m = m + 1 := by
    unfold nextIdx; rw [if_neg (by omega)]
  have e1 := hflat m (by omega) (by omega)
  have e2 := hflat (m + 1) (by omega) (by omega)
  have e3 : valAt nums (prevIdx nums.length m) = valAt nums 0 := by
    unfold prevIdx
    split
    · exact hlast
    · exact hflat (m - 1) (by omega) (by omega)
  have hpv : valAt nums m ≤ valAt nums (nextIdx nums.length m) ∧
      valAt nums m ≤ valAt nums (prevIdx nums.length m) := by
    rw [hnx, e1, e2, e3]; exact ⟨le_refl _, le_refl _⟩
  rw [if_pos hpv]
  refine ⟨m, rfl, by omega, by omega, ?_⟩
  rw [pivotTest_inBounds nums m (by omega) (by omega), decide_eq_true hpv]

/-- The loop invariant for a vector with a strict descent between `p - 1` and
`p`: while the window `[start, end]` contains `p` the loop either returns an
index that passes the pivot test, keeps `p` inside the window, or moves into a
plateau of values equal to the last element, where the next probe succeeds. -/
theorem searchLoop_rotated (nums : List Int) (p : Int) (hp1 : 1 ≤ p)
    (hpn : p < nums.length)
    (hleft : ∀ i j : Int, 0 ≤ i → i ≤ j → j < p → valAt nums i ≤ valAt nums j)
    (hright : ∀ i j : Int, p ≤ i → i ≤ j → j < nums.length → valAt nums i ≤ valAt nums j)
    (hwrap : valAt nums ((nums.length : Int) - 1) ≤ valAt nums 0)
    (hdesc : valAt nums p < valAt nums (p - 1)) :
    ∀ (fuel : Nat) (s e : Int) (cnt : Nat), 0 ≤ s → s ≤ p → p ≤ e → e < nums.length →
      e - s + 1 < fuel →
      ∃ i, (searchLoop nums nums.length fuel s e cnt).result = Outcome.value i ∧
        0 ≤ i ∧ i < nums.length ∧ pivotTest nums nums.length i = some true := by
  intro fuel
  induction fuel with
  | zero => intro s e cnt _ _ _ _ h4; exfalso; simp at h4; omega
  | succ fuel ih =>
    intro s e cnt h0 hsp hpe h1 h4
    have hse : s ≤ e := by omega
    have hm := mid_range s e hse
    rw [searchLoop_step nums fuel s e cnt h0 hse h1]
    generalize s + (e - s).tdiv 2 = m at hm ⊢
    by_cases hpv : valAt nums m ≤ valAt nums (nextIdx nums.length m) ∧
        valAt nums m ≤ valAt nums (prevIdx nums.length m)
    · rw [if_pos hpv]
      refine ⟨m, rfl, by omega, by omega, ?_⟩
      rw [pivotTest_inBounds nums m (by omega) (by omega), decide_eq_true hpv]
    · rw [if_neg hpv]
      by_cases hd : valAt nums e < valAt nums m
      · rw [if_pos hd]
        have hmp : m < p := by
          by_contra hge
          have := hright m e (by omega) hm.2.1 h1
          omega
        exact ih (m + 1) e (cnt + 1) (by omega) (by omega) hpe h1
          (by push_cast at h4; omega)
      · rw [if_neg hd]
        by_cases hmp : p ≤ m
        · have hne : m ≠ p := by
            intro heq
            subst heq
            apply hpv
            constructor
            · unfold nextIdx
              split
              · next h =>
                have := hright m ((nums.length : Int) - 1) (le_refl _) (by omega) (by omega)
                omega
              · next h => exact hright m (m + 1) (le_refl _) (by omega) (by omega)
            · unfold prevIdx
              rw [if_neg (by omega)]
              omega
          exact ih s (m - 1) (cnt + 1) h0 hsp (by omega) (by omega)
            (by push_cast at h4; omega)
        · have a1 := hright e ((nums.length : Int) - 1) hpe (by omega) (by omega)
          have a2 := hleft 0 m (le_refl _) (by omega) (by omega)
          have hflat : ∀ i : Int, 0 ≤ i → i ≤ m → valAt nums i = valAt nums 0 := by
            intro i hi0 him
            have b1 := hleft 0 i (le_refl _) hi0 (by omega)
            have b2 := hleft i m hi0 him (by omega)
            omega
          have hlast : valAt nums ((nums.length : Int) - 1) = valAt nums 0 := by omega
          have hprev : valAt nums m ≤ valAt nums (prevIdx nums.length m) := by
            unfold prevIdx
            split
            · omega
            · have := hflat (m - 1) (by omega) (by omega)
              omega
          have hnx : nextIdx nums.length m = m + 1 := by
            unfold nextIdx; rw [if_neg (by omega)]
          have hnext : ¬ valAt nums m ≤ valAt nums (m + 1) := by
            intro h; apply hpv; rw [hnx]; exact ⟨h, hprev⟩
          have hmeq : m + 1 = p := by
            by_contra hlt
            exact hnext (hleft m (m + 1) (by omega) (by omega) (by omega))
          have hs : s ≤ m - 1 := by
            by_contra hgt
            have hep : e = p := by omega
            have hmm : m = p - 1 := by omega
            rw [hep, hmm] at hd
            omega
          obtain ⟨k, rfl⟩ : ∃ k, fuel = k + 1 :=
            Nat.exists_eq_succ_of_ne_zero (by intro hz; subst hz; simp at h4; omega)
          exact searchLoop_plateau nums m (by omega) hflat hlast k s (m - 1) (cnt + 1) h0 hs
            (by omega)

/-! ## From lists to indexed facts -/

theorem valAt_mono_of_sorted (l : List Int) (h : List.Sorted (· ≤ ·) l) (i j : Int)
    (hi : 0 ≤ i) (hij : i ≤ j) (hj : j < l.length) : valAt l i ≤ valAt l j := by
  have hi' : i.toNat < l.length := by omega
  have hj' : j.toNat < l.length := by omega
  unfold valAt
  rw [List.getD_eq_getElem _ _ hi', List.getD_eq_getElem _ _ hj']
  rcases Nat.eq_or_lt_of_le (by omega : i.toNat ≤ j.toNat) with heq | hlt
  · simp [heq]
  · exact (List.pairwise_iff_getElem.mp h) i.toNat j.toNat hi' hj' hlt

theorem valAt_append_left (A B : List Int) (i : Int) (h0 : 0 ≤ i) (h : i < A.length) :
    valAt (A ++ B) i = valAt A i := by
  unfold valAt
  exact List.getD_append A B 0 i.toNat (by omega)

theorem valAt_append_right (A B : List Int) (i : Int) (h : (A.length : Int) ≤ i) :
    valAt (A ++ B) i = valAt B (i - A.length) := by
  unfold valAt
  rw [List.getD_append_right A B 0 i.toNat (by omega)]
  congr 1
  omega

theorem valAt_mem (l : List Int) (i : Int) (h0 : 0 ≤ i) (h : i < l.length) :
    valAt l i ∈ l := by
  have hi : i.toNat < l.length := by omega
  unfold valAt
  rw [List.getD_eq_getElem _ _ hi]
  exact List.getElem_mem hi

theorem exists_valAt_of_mem (l : List Int) (x : Int) (hx : x ∈ l) :
    ∃ i : Int, 0 ≤ i ∧ i < l.length ∧ valAt l i = x := by
  obtain ⟨k, hk, rfl⟩ := List.getElem_of_mem hx
  refine ⟨(k : Int), by omega, by omega, ?_⟩
  unfold valAt
  rw [Int.toNat_ofNat, List.getD_eq_getElem _ _ hk]

/-- A rotation of a sorted list is a concatenation `A ++ B` with `B ++ A` sorted. -/
theorem rotated_split (nums : List Int) (h : IsRotatedSorted nums) :
    ∃ A B : List Int, nums = A ++ B ∧ List.Sorted (· ≤ ·) (B ++ A) := by
  obtain ⟨s, k, hs, rfl⟩ := h
  refine ⟨s.drop (k % s.length), s.take (k % s.length),
    List.rotate_eq_drop_append_take_mod, ?_⟩
  rw [List.take_append_drop]
  exact hs

/-- Indexed shape of `A ++ B` when `B ++ A` is sorted: both blocks are
non-decreasing and every element of the second block is at most every element
of the first. -/
theorem split_indexed (A B : List Int) (h : List.Sorted (· ≤ ·) (B ++ A)) :
    (∀ i j : Int, 0 ≤ i → i ≤ j → j < A.length →
        valAt (A ++ B) i ≤ valAt (A ++ B) j) ∧
    (∀ i j : Int, (A.length : Int) ≤ i → i ≤ j → j < (A ++ B).length →
        valAt (A ++ B) i ≤ valAt (A ++ B) j) ∧
    (∀ i j : Int, 0 ≤ i → i < A.length → (A.length : Int) ≤ j → j < (A ++ B).length →
        valAt (A ++ B) j ≤ valAt (A ++ B) i) := by
  have hlen : ((A ++ B).length : Int) = A.length + B.length := by simp
  have hlen2 : ((B ++ A).length : Int) = A.length + B.length := by simp; ring
  have key : ∀ i j : Int, 0 ≤ i → i ≤ j → j < (A.length : Int) + B.length →
      valAt (B ++ A) i ≤ valAt (B ++ A) j :=
    fun i j hi hij hj => valAt_mono_of_sorted (B ++ A) h i j hi hij (by omega)
  refine ⟨?_, ?_, ?_⟩
  · intro i j hi hij hj
    rw [valAt_append_left A B i hi (by omega), valAt_append_left A B j (by omega) hj]
    have := key (B.length + i) (B.length + j) (by omega) (by omega) (by omega)
    rw [valAt_append_right B A _ (by omega), valAt_append_right B A _ (by omega)] at this
    simpa using this
  · intro i j hi hij hj
    rw [valAt_append_right A B i hi, valAt_append_right A B j (by omega)]
    have := key (i - A.length) (j - A.length) (by omega) (by omega) (by omega)
    rw [valAt_append_left B A _ (by omega) (by omega),
      valAt_append_left B A _ (by omega) (by omega)] at this
    exact this
  · intro i j hi hiA hj hjn
    rw [valAt_append_right A B j hj, valAt_append_left A B i hi hiA]
    have := key (j - A.length) (B.length + i) (by omega) (by omega) (by omega)
    rw [valAt_append_left B A _ (by omega) (by omega),
      valAt_append_right B A _ (by omega)] at this
    simpa using this

/-- A rotated non-decreasing vector is either non-decreasing as it stands, or it
has one strict descent, between `p - 1` and `p`, with non-decreasing blocks on
both sides and a last element that is at most the first. -/
theorem rotated_cases (nums : List Int) (h : IsRotatedSorted nums) :
    (∀ i j : Int, 0 ≤ i → i ≤ j → j < nums.length → valAt nums i ≤ valAt nums j) ∨
    (∃ p : Int, 1 ≤ p ∧ p < nums.length ∧
      (∀ i j : Int, 0 ≤ i → i ≤ j → j < p → valAt nums i ≤ valAt nums j) ∧
      (∀ i j : Int, p ≤ i → i ≤ j → j < nums.length → valAt nums i ≤ valAt nums j) ∧
      valAt nums ((nums.length : Int) - 1) ≤ valAt nums 0 ∧
      valAt nums p < valAt nums (p - 1)) := by
  obtain ⟨A, B, rfl, hs⟩ := rotated_split nums h
  obtain ⟨hl, hr, hx⟩ := split_indexed A B hs
  have hlen : ((A ++ B).length : Int) = A.length + B.length := by simp
  by_cases hmid : 1 ≤ (A.length : Int) ∧ (A.length : Int) < (A ++ B).length ∧
      valAt (A ++ B) A.length < valAt (A ++ B) ((A.length : Int) - 1)
  · right
    exact ⟨A.length, hmid.1, hmid.2.1, hl, hr,
      hx 0 _ (le_refl _) (by omega) (by omega) (by omega), hmid.2.2⟩
  · left
    intro i j hi hij hj
    by_cases c1 : j < A.length
    · exact hl i j hi hij c1
    · by_cases c2 : (A.length : Int) ≤ i
      · exact hr i j c2 hij hj
      · have hA : 1 ≤ (A.length : Int) := by omega
        have hA2 : (A.length : Int) < (A ++ B).length := by omega
        have d1 := hl i ((A.length : Int) - 1) hi (by omega) (by omega)
        have d2 := hr A.length j (le_refl _) (by omega) hj
        have d3 : valAt (A ++ B) ((A.length : Int) - 1) ≤ valAt (A ++ B) A.length := by
          by_contra hlt
          exact hmid ⟨hA, hA2, by omega⟩
        omega

theorem valAt_zero_of_head (nums : List Int) (a : Int) (h : nums.head? = some a) :
    valAt nums 0 = a := by
  cases nums with
  | nil => simp at h
  | cons x tl => simp at h; subst h; simp [valAt]

theorem valAt_last_of_getLast (nums : List Int) (b : Int) (h : nums.getLast? = some b) :
    valAt nums ((nums.length : Int) - 1) = b := by
  have hne : nums ≠ [] := by intro hn; subst hn; simp at h
  have hpos : 0 < nums.length := List.length_pos.mpr hne
  have e : ((nums.length : Int) - 1).toNat = nums.length - 1 := by omega
  unfold valAt
  rw [e, List.getD_eq_getElem?_getD, ← List.getLast?_eq_getElem?, h]
  rfl

/-- In a constant vector every index passes the pivot test. -/
theorem pivotTest_const (nums : List Int)
    (hc : ∀ i : Int, 0 ≤ i → i < nums.length → valAt nums i = valAt nums 0)
    (i : Int) (h0 : 0 ≤ i) (h1 : i < nums.length) :
    pivotTest nums nums.length i = some true := by
  have hn := nextIdx_range nums.length i h0 h1
  have hq := prevIdx_range nums.length i h0 h1
  have e1 := hc i h0 h1
  have e2 := hc _ hn.1 hn.2
  have e3 := hc _ hq.1 hq.2
  rw [pivotTest_inBounds nums i h0 h1, decide_eq_true (by constructor <;> omega)]

/-- A non-decreasing vector whose first element is not below its last is constant. -/
theorem const_of_mono (nums : List Int)
    (hmono : ∀ i j : Int, 0 ≤ i → i ≤ j → j < nums.length → valAt nums i ≤ valAt nums j)
    (hfl : ¬ valAt nums 0 < valAt nums ((nums.length : Int) - 1)) :
    ∀ i : Int, 0 ≤ i → i < nums.length → valAt nums i = valAt nums 0 := by
  intro i h0 h1
  have a1 := hmono 0 i (le_refl _) h0 h1
  have a2 := hmono i ((nums.length : Int) - 1) h0 (by omega) (by omega)
  omega

/-! ## Rotated non-decreasing vectors: an index is always returned -/

/-- On a non-empty rotation of a non-decreasing vector `findMin` returns an
index of the vector, reached either by the fast path (no loop iteration) or by
a successful pivot test. -/
theorem findMin_rotated_found (nums : List Int) (hne : nums ≠ [])
    (hrot : IsRotatedSorted nums) :
    ∃ i, (findMin nums).result = Outcome.value i ∧ 0 ≤ i ∧ i < nums.length ∧
      ((i = 0 ∧ (findMin nums).iters = 0) ∨ pivotTest nums nums.length i = some true) := by
  have hpos : 0 < nums.length := List.length_pos.mpr hne
  by_cases hfast : valAt nums 0 < valAt nums ((nums.length : Int) - 1)
  · rw [findMin_nonempty nums hne, if_pos hfast]
    exact ⟨0, rfl, le_refl _, by omega, Or.inl ⟨rfl, rfl⟩⟩
  · rcases rotated_cases nums hrot with hmono | ⟨p, hp1, hpn, hl, hr, hw, hd⟩
    · have hc := const_of_mono nums hmono hfast
      rw [findMin_const nums hne hc]
      have h2 : 0 ≤ ((nums.length : Int) - 1) / 2 ∧
          ((nums.length : Int) - 1) / 2 < nums.length := by omega
      exact ⟨_, rfl, h2.1, h2.2, Or.inr (pivotTest_const nums hc _ h2.1 h2.2)⟩
    · rw [findMin_nonempty nums hne, if_neg hfast]
      obtain ⟨i, hi, hi0, hi1, hpv⟩ := searchLoop_rotated nums p hp1 hpn hl hr hw hd
        (nums.length + 1) 0 ((nums.length : Int) - 1) 0 (le_refl _) (by omega) (by omega)
        (by omega) (by push_cast; omega)
      exact ⟨i, hi, hi0, hi1, Or.inr hpv⟩

/-- A rotation of a non-decreasing vector whose first element is strictly below
its last element is non-decreasing as it stands. -/
theorem sorted_of_rotated_of_first_lt_last (nums : List Int) (hrot : IsRotatedSorted nums)
    (hlt : valAt nums 0 < valAt nums ((nums.length : Int) - 1)) :
    List.Sorted (· ≤ ·) nums := by
  obtain ⟨A, B, rfl, hs⟩ := rotated_split nums hrot
  obtain ⟨_, _, hx⟩ := split_indexed A B hs
  have hlen : ((A ++ B).length : Int) = A.length + B.length := by simp
  rcases A with _ | ⟨a, A⟩
  · simpa using hs
  · rcases B with _ | ⟨b, B⟩
    · simpa using hs
    · exfalso
      have := hx 0 (((a :: A) ++ (b :: B)).length - 1) (le_refl _) (by simp)
        (by simp) (by omega)
      omega

/-! ## The claims -/

/-- C1 (code defect): `[2,2,2,0,2,2]`, the first input of the driver `main`, is the
non-decreasing `[0,2,2,2,2,2]` rotated by 3, yet `findMin` returns index 0, whose
element is 2, while the minimum 0 sits at index 3.  With duplicates the returned
index need not hold the minimum. -/
theorem findMin_rotated_duplicates_not_minimum :
    List.Sorted (· ≤ ·) ([0, 2, 2, 2, 2, 2] : List Int) ∧
    ([0, 2, 2, 2, 2, 2] : List Int).rotate 3 = [2, 2, 2, 0, 2, 2] ∧
    (findMin (([0, 2, 2, 2, 2, 2] : List Int).rotate 3)).result = Outcome.value 0 ∧
    readAt (([0, 2, 2, 2, 2, 2] : List Int).rotate 3) 0 = some 2 ∧
    readAt (([0, 2, 2, 2, 2, 2] : List Int).rotate 3) 3 = some 0 := by
  decide

/-- C2: on every non-empty rotation of a non-decreasing sequence `findMin` returns
an index of the sequence, never the sentinel `-1`; the index comes from the fast
path (index 0, no loop iteration) or from a successful pivot test.  Equivalently,
a non-empty input on which `findMin` returns `-1` is not such a rotation. -/
theorem findMin_rotated_never_sentinel (nums : List Int) (hne : nums ≠ []) :
    (IsRotatedSorted nums →
      (findMin nums).result ≠ Outcome.value (-1) ∧
      ∃ i, (findMin nums).result = Outcome.value i ∧ 0 ≤ i ∧ i < nums.length ∧
        ((i = 0 ∧ (findMin nums).iters = 0) ∨ pivotTest nums nums.length i = some true)) ∧
    ((findMin nums).result = Outcome.value (-1) → ¬ IsRotatedSorted nums) := by
  have key : IsRotatedSorted nums → (findMin nums).result ≠ Outcome.value (-1) := by
    intro hrot heq
    obtain ⟨i, hi, hi0, _, _⟩ := findMin_rotated_found nums hne hrot
    rw [hi] at heq
    injection heq with h
    omega
  exact ⟨fun hrot => ⟨key hrot, findMin_rotated_found nums hne hrot⟩,
    fun heq hrot => key hrot heq⟩

/-- Witness for C2: the second input of the driver `main`, the non-decreasing
`[1,1,2,3,4,4,5,6,7,7,8]` rotated by 6. -/
theorem findMin_rotated_never_sentinel_witness :
    ([5, 6, 7, 7, 8, 1, 1, 2, 3, 4, 4] : List Int) ≠ [] ∧
    IsRotatedSorted [5, 6, 7, 7, 8, 1, 1, 2, 3, 4, 4] ∧
    (findMin [5, 6, 7, 7, 8, 1, 1, 2, 3, 4, 4]).result ≠ Outcome.value (-1) :=
  have hrot : IsRotatedSorted [5, 6, 7, 7, 8, 1, 1, 2, 3, 4, 4] :=
    ⟨[1, 1, 2, 3, 4, 4, 5, 6, 7, 7, 8], 6, by decide, by decide⟩
  ⟨by decide, hrot,
    ((findMin_rotated_never_sentinel [5, 6, 7, 7, 8, 1, 1, 2, 3, 4, 4] (by decide)).1 hrot).1⟩

/-- C3: on every non-empty integer sequence, rotated-sorted or not, `findMin`
ends with a returned value (no read of `nums[0]`, `nums[n-1]`, `nums[mid]`,
`nums[next]`, `nums[prev]` or `nums[end]` is out of bounds, and the loop
terminates), and that value is `-1` or an index `i` with `0 ≤ i < n`. -/
theorem findMin_safe (nums : List Int) (hne : nums ≠ []) :
    ∃ r, (findMin nums).result = Outcome.value r ∧
      (r = -1 ∨ (0 ≤ r ∧ r < nums.length)) := by
  have hpos : 0 < nums.length := List.length_pos.mpr hne
  rw [findMin_nonempty nums hne]
  split_ifs with hfast
  · exact ⟨0, rfl, Or.inr ⟨le_refl _, by omega⟩⟩
  · obtain ⟨r, hr, hr2⟩ := searchLoop_safe nums (nums.length + 1) 0
      ((nums.length : Int) - 1) 0 (le_refl _) (by omega) (by omega) (by push_cast; omega)
    exact ⟨r, hr, by omega⟩

/-- Witness for C3: the malformed input `[3,2,1,2]`. -/
theorem findMin_safe_witness :
    ([3, 2, 1, 2] : List Int) ≠ [] ∧
    ∃ r, (findMin [3, 2, 1, 2]).result = Outcome.value r ∧
      (r = -1 ∨ (0 ≤ r ∧ r < ([3, 2, 1, 2] : List Int).length)) :=
  ⟨by decide, findMin_safe [3, 2, 1, 2] (by decide)⟩

/-- C4 as stated fails: `[1,1,1]` is non-decreasing (rotation offset 0) and
`findMin` returns index 1, not 0. -/
theorem findMin_sorted_constant_not_zero :
    List.Sorted (· ≤ ·) ([1, 1, 1] : List Int) ∧
    (findMin [1, 1, 1]).result = Outcome.value 1 ∧
    (findMin [1, 1, 1]).result ≠ Outcome.value 0 := by
  decide

/-- C4 amended: on a non-empty non-decreasing sequence `findMin` returns index 0
through the fast path when the elements are not all equal, and index
`(n - 1) / 2` after one loop iteration when they are all equal. -/
theorem findMin_sorted (nums : List Int) (hne : nums ≠ [])
    (hs : List.Sorted (· ≤ ·) nums) :
    ((∃ x ∈ nums, ∃ y ∈ nums, x ≠ y) → findMin nums = ⟨Outcome.value 0, 0⟩) ∧
    ((∀ x ∈ nums, ∀ y ∈ nums, x = y) →
      findMin nums = ⟨Outcome.value (((nums.length : Int) - 1) / 2), 1⟩) := by
  have hpos : 0 < nums.length := List.length_pos.mpr hne
  constructor
  · rintro ⟨x, hx, y, hy, hxy⟩
    rw [findMin_nonempty nums hne]
    by_cases hfast : valAt nums 0 < valAt nums ((nums.length : Int) - 1)
    · rw [if_pos hfast]
    · exfalso
      have hc := const_of_mono nums (valAt_mono_of_sorted nums hs) hfast
      obtain ⟨i, hi0, hi1, rfl⟩ := exists_valAt_of_mem nums x hx
      obtain ⟨j, hj0, hj1, rfl⟩ := exists_valAt_of_mem nums y hy
      exact hxy ((hc i hi0 hi1).trans (hc j hj0 hj1).symm)
  · intro hall
    exact findMin_const nums hne fun i h0 h1 =>
      hall _ (valAt_mem nums i h0 h1) _ (valAt_mem nums 0 (le_refl _) (by omega))

/-- Witness for C4 amended: the unrotated example `[1,2,3,4,5]` of the spec, and
the constant `[4,4,4,4,4]`, which gives index 2. -/
theorem findMin_sorted_witness :
    ([1, 2, 3, 4, 5] : List Int) ≠ [] ∧ List.Sorted (· ≤ ·) ([1, 2, 3, 4, 5] : List Int) ∧
    findMin [1, 2, 3, 4, 5] = ⟨Outcome.value 0, 0⟩ ∧
    findMin [4, 4, 4, 4, 4] = ⟨Outcome.value ((5 - 1) / 2), 1⟩ :=
  ⟨by decide, by decide,
    (findMin_sorted [1, 2, 3, 4, 5] (by decide) (by decide)).1
      ⟨1, by decide, 2, by decide, by decide⟩,
    (findMin_sorted [4, 4, 4, 4, 4] (by decide) (by decide)).2 (by decide)⟩

/-- C5 (code defect): on `[2,2,2,0,2,2]` `findMin` returns 0 after two loop
iterations, not the index 3 of the minimum. -/
theorem findMin_driver_first :
    findMin [2, 2, 2, 0, 2, 2] = ⟨Outcome.value 0, 2⟩ ∧
    (findMin [2, 2, 2, 0, 2, 2]).result ≠ Outcome.value 3 := by
  decide

/-- C6: on `[5,6,7,7,8,1,1,2,3,4,4]` `findMin` returns 5, the first position of
the minimum 1, and on `[2,1]` it returns 1. -/
theorem findMin_driver_second :
    (findMin [5, 6, 7, 7, 8, 1, 1, 2, 3, 4, 4]).result = Outcome.value 5 ∧
    (∀ x ∈ ([5, 6, 7, 7, 8, 1, 1, 2, 3, 4, 4] : List Int), 1 ≤ x) ∧
    List.indexOf (1 : Int) [5, 6, 7, 7, 8, 1, 1, 2, 3, 4, 4] = 5 ∧
    (findMin [2, 1]).result = Outcome.value 1 := by
  decide

/-- C7: on a one-element sequence `findMin` returns index 0 (by the pivot test
of the first loop iteration). -/
theorem findMin_singleton (x : Int) : findMin [x] = ⟨Outcome.value 0, 1⟩ := by
  have h := findMin_const [x] (by simp) (by
    intro i h0 h1
    have : i = 0 := by simp at h1; omega
    rw [this])
  simpa using h

/-- C8: on a non-empty sequence whose elements are all equal `findMin` returns
an index `i` with `0 ≤ i < n`, not `-1`. -/
theorem findMin_all_equal (nums : List Int) (x : Int) (hne : nums ≠ [])
    (hall : ∀ y ∈ nums, y = x) :
    (findMin nums).result ≠ Outcome.value (-1) ∧
    ∃ i, (findMin nums).result = Outcome.value i ∧ 0 ≤ i ∧ i < nums.length := by
  have hpos : 0 < nums.length := List.length_pos.mpr hne
  have h := findMin_const nums hne fun i h0 h1 =>
    (hall _ (valAt_mem nums i h0 h1)).trans
      (hall _ (valAt_mem nums 0 (le_refl _) (by omega))).symm
  rw [h]
  refine ⟨?_, _, rfl, by omega, by omega⟩
  intro heq
  injection heq with h'
  omega

/-- Witness for C8: four copies of 7. -/
theorem findMin_all_equal_witness :
    ([7, 7, 7, 7] : List Int) ≠ [] ∧ (∀ y ∈ ([7, 7, 7, 7] : List Int), y = 7) ∧
    (findMin [7, 7, 7, 7]).result ≠ Outcome.value (-1) :=
  ⟨by decide, by decide, (findMin_all_equal [7, 7, 7, 7] 7 (by decide) (by decide)).1⟩

/-- C9: a rotation of a non-decreasing sequence whose first element `a` is
strictly below its last element `b` is itself non-decreasing; `findMin` returns
0 without executing the loop body, and `a`, the element at index 0, is the
minimum. -/
theorem findMin_fast_path (nums : List Int) (a b : Int) (hrot : IsRotatedSorted nums)
    (hfirst : nums.head? = some a) (hlast : nums.getLast? = some b) (hlt : a < b) :
    List.Sorted (· ≤ ·) nums ∧ findMin nums = ⟨Outcome.value 0, 0⟩ ∧
      readAt nums 0 = some a ∧ ∀ x ∈ nums, a ≤ x := by
  have hne : nums ≠ [] := by intro hn; subst hn; simp at hfirst
  have hpos : 0 < nums.length := List.length_pos.mpr hne
  have h0 := valAt_zero_of_head nums a hfirst
  have h1 := valAt_last_of_getLast nums b hlast
  have hfast : valAt nums 0 < valAt nums ((nums.length : Int) - 1) := by
    rw [h0, h1]; exact hlt
  have hs := sorted_of_rotated_of_first_lt_last nums hrot hfast
  refine ⟨hs, ?_, ?_, ?_⟩
  · rw [findMin_nonempty nums hne, if_pos hfast]
  · rw [readAt_inBounds nums 0 (le_refl _) (by omega), h0]
  · intro x hx
    obtain ⟨i, hi0, hi1, rfl⟩ := exists_valAt_of_mem nums x hx
    rw [← h0]
    exact valAt_mono_of_sorted nums hs 0 i (le_refl _) hi0 hi1

/-- Witness for C9: `[1,2,3,4,5]`, a rotation by 5 of itself. -/
theorem findMin_fast_path_witness :
    IsRotatedSorted [1, 2, 3, 4, 5] ∧ ([1, 2, 3, 4, 5] : List Int).head? = some 1 ∧
    ([1, 2, 3, 4, 5] : List Int).getLast? = some 5 ∧
    findMin [1, 2, 3, 4, 5] = ⟨Outcome.value 0, 0⟩ :=
  have hrot : IsRotatedSorted [1, 2, 3, 4, 5] := ⟨[1, 2, 3, 4, 5], 5, by decide, by decide⟩
  ⟨hrot, by decide, by decide,
    (findMin_fast_path [1, 2, 3, 4, 5] 1 5 hrot (by decide) (by decide) (by decide)).2.1⟩

/-- C10: on the empty sequence the reads of `nums[0]` and `nums[n-1] = nums[-1]`
in line 7 are both out of bounds, so with checked indexing the call ends in the
error outcome, before any loop iteration, rather than in an index or `-1`. -/
theorem findMin_empty :
    readAt [] 0 = none ∧ readAt [] ((([] : List Int).length : Int) - 1) = none ∧
    findMin [] = ⟨Outcome.fault, 0⟩ := by
  decide

/-! ## Every returned index passed the pivot test -/

/-- Whatever the input, an index returned by the loop lies in the window and
passed the pivot test; the only other value the loop returns is `-1`. -/
theorem searchLoop_result (nums : List Int) :
    ∀ (fuel : Nat) (s e : Int) (cnt : Nat), 0 ≤ s → e < nums.length →
      ∀ i, (searchLoop nums nums.length fuel s e cnt).result = Outcome.value i →
        i = -1 ∨ (s ≤ i ∧ i ≤ e ∧ pivotTest nums nums.length i = some true) := by
  intro fuel
  induction fuel with
  | zero => intro s e cnt _ _ i h; simp [searchLoop] at h
  | succ fuel ih =>
    intro s e cnt h0 h1 i h
    by_cases hse : s ≤ e
    · have hm := mid_range s e hse
      rw [searchLoop_step nums fuel s e cnt h0 hse h1] at h
      generalize s + (e - s).tdiv 2 = m at hm h
      by_cases hpv : valAt nums m ≤ valAt nums (nextIdx nums.length m) ∧
          valAt nums m ≤ valAt nums (prevIdx nums.length m)
      · rw [if_pos hpv] at h
        injection h with h
        subst h
        right
        refine ⟨hm.1, hm.2.1, ?_⟩
        rw [pivotTest_inBounds nums m (by omega) (by omega), decide_eq_true hpv]
      · rw [if_neg hpv] at h
        by_cases hd : valAt nums e < valAt nums m
        · rw [if_pos hd] at h
          rcases ih (m + 1) e (cnt + 1) (by omega) h1 i h with h' | ⟨a, b, c⟩
          · exact Or.inl h'
          · exact Or.inr ⟨by omega, b, c⟩
        · rw [if_neg hd] at h
          rcases ih s (m - 1) (cnt + 1) h0 (by omega) i h with h' | ⟨a, b, c⟩
          · exact Or.inl h'
          · exact Or.inr ⟨a, by omega, c⟩
    · rw [searchLoop_exit nums _ fuel s e cnt hse] at h
      injection h with h
      exact Or.inl h.symm

theorem nextIdx_eq_emod (n i : Int) (h0 : 0 ≤ i) (h1 : i < n) :
    nextIdx n i = (i + 1) % n := by
  rw [← tmod_next n i h0 h1, Int.tmod_eq_emod (by omega) (by omega)]

theorem prevIdx_eq_emod (n i : Int) (h0 : 0 ≤ i) (h1 : i < n) :
    prevIdx n i = (i + n - 1) % n := by
  rw [← tmod_prev n i h0 h1, Int.tmod_eq_emod (by omega) (by omega)]

/-- C15: when the fast path does not apply (the first element `a` is not
strictly below the last element `b`) and `findMin` returns a value `i` other
than `-1`, then `0 ≤ i < n`, `i` passed the pivot test, and `nums[i]` is a
circular local minimum. -/
theorem findMin_returns_local_min (nums : List Int) (a b i : Int)
    (hfirst : nums.head? = some a) (hlast : nums.getLast? = some b) (hge : ¬ a < b)
    (hres : (findMin nums).result = Outcome.value i) (hi : i ≠ -1) :
    0 ≤ i ∧ i < nums.length ∧ pivotTest nums nums.length i = some true ∧
      valAt nums i ≤ valAt nums ((i + 1) % nums.length) ∧
      valAt nums i ≤ valAt nums ((i + nums.length - 1) % nums.length) := by
  have hne : nums ≠ [] := by intro hn; subst hn; simp at hfirst
  have hpos : 0 < nums.length := List.length_pos.mpr hne
  have hnf : ¬ valAt nums 0 < valAt nums ((nums.length : Int) - 1) := by
    rw [valAt_zero_of_head nums a hfirst, valAt_last_of_getLast nums b hlast]; exact hge
  rw [findMin_nonempty nums hne, if_neg hnf] at hres
  rcases searchLoop_result nums _ 0 _ 0 (le_refl _) (by omega) i hres with h | ⟨h0, h1, hp⟩
  · exact absurd h hi
  · have hlt : i < nums.length := by omega
    refine ⟨h0, hlt, hp, ?_⟩
    rw [pivotTest_inBounds nums i h0 hlt] at hp
    have hc := of_decide_eq_true (Option.some.inj hp)
    rw [nextIdx_eq_emod _ _ h0 hlt, prevIdx_eq_emod _ _ h0 hlt] at hc
    exact hc

/-- Witness for C15: `[2,2,2,0,2,2]`, where the returned index 0 is a circular
local minimum although not the minimum. -/
theorem findMin_returns_local_min_witness :
    (findMin [2, 2, 2, 0, 2, 2]).result = Outcome.value 0 ∧
    pivotTest [2, 2, 2, 0, 2, 2] 6 0 = some true ∧
    valAt [2, 2, 2, 0, 2, 2] 0 ≤ valAt [2, 2, 2, 0, 2, 2] 1 ∧
    valAt [2, 2, 2, 0, 2, 2] 0 ≤ valAt [2, 2, 2, 0, 2, 2] 5 :=
  have h := findMin_returns_local_min [2, 2, 2, 0, 2, 2] 2 2 0 (by decide) (by decide)
    (by decide) (by decide) (by decide)
  ⟨by decide, h.2.2.1, h.2.2.2.1, h.2.2.2.2⟩

/-! ## Strictly increasing sequences -/

/-- In a list without duplicates, equal values sit at equal indices. -/
theorem valAt_inj_of_nodup (l : List Int) (hnd : l.Nodup) (i j : Int) (hi0 : 0 ≤ i)
    (hi : i < l.length) (hj0 : 0 ≤ j) (hj : j < l.length) (h : valAt l i = valAt l j) :
    i = j := by
  have hi' : i.toNat < l.length := by omega
  have hj' : j.toNat < l.length := by omega
  unfold valAt at h
  rw [List.getD_eq_getElem _ _ hi', List.getD_eq_getElem _ _ hj'] at h
  have := (List.Nodup.getElem_inj_iff hnd).mp h
  omega

/-- C16: on every rotation of a non-empty strictly increasing sequence
`findMin` returns the index of the minimum, which is unique: the element there
is strictly below the element at every other index. -/
theorem findMin_strict_rotated (s : List Int) (k : Nat) (hs : List.Sorted (· < ·) s)
    (hne : s ≠ []) :
    ∃ i, (findMin (s.rotate k)).result = Outcome.value i ∧ 0 ≤ i ∧
      i < (s.rotate k).length ∧
      ∀ j : Int, 0 ≤ j → j < (s.rotate k).length → j ≠ i →
        valAt (s.rotate k) i < valAt (s.rotate k) j := by
  have hrot : IsRotatedSorted (s.rotate k) := ⟨s, k, hs.le_of_lt, rfl⟩
  have hnd : (s.rotate k).Nodup := List.nodup_rotate.mpr hs.nodup
  have hne2 : s.rotate k ≠ [] := by
    intro h; exact hne (List.rotate_eq_nil_iff.mp h)
  generalize s.rotate k = nums at hrot hnd hne2 ⊢
  have hpos : 0 < nums.length := List.length_pos.mpr hne2
  have hinj := valAt_inj_of_nodup nums hnd
  obtain ⟨i, hi, h0, h1, _⟩ := findMin_rotated_found nums hne2 hrot
  refine ⟨i, hi, h0, h1, ?_⟩
  have hmin : ∀ j : Int, 0 ≤ j → j < nums.length → valAt nums i ≤ valAt nums j := by
    by_cases hfast : valAt nums 0 < valAt nums ((nums.length : Int) - 1)
    · rw [findMin_nonempty nums hne2, if_pos hfast] at hi
      injection hi with hi
      subst hi
      have hsort := sorted_of_rotated_of_first_lt_last nums hrot hfast
      intro j hj0 hj1
      exact valAt_mono_of_sorted nums hsort 0 j (le_refl _) hj0 hj1
    · rw [findMin_nonempty nums hne2, if_neg hfast] at hi
      rcases searchLoop_result nums _ 0 _ 0 (le_refl _) (by omega) i hi with h | ⟨_, _, hp⟩
      · omega
      · rw [pivotTest_inBounds nums i h0 h1] at hp
        have hc := of_decide_eq_true (Option.some.inj hp)
        rcases rotated_cases nums hrot with hmono | ⟨p, hp1, hpn, hl, hr, hw, hd⟩
        · have hconst := const_of_mono nums hmono hfast
          intro j hj0 hj1
          rw [hconst i h0 h1, hconst j hj0 hj1]
        · have hip : i = p := by
            by_contra hne3
            by_cases hi0 : i = 0
            · subst hi0
              have h2 := hc.2
              unfold prevIdx at h2
              rw [if_pos rfl] at h2
              have := hinj 0 ((nums.length : Int) - 1) (le_refl _) (by omega) (by omega)
                (by omega) (by omega)
              omega
            · have h2 := hc.2
              unfold prevIdx at h2
              rw [if_neg hi0] at h2
              have h3 : valAt nums (i - 1) ≤ valAt nums i := by
                by_cases hlt : i < p
                · exact hl (i - 1) i (by omega) (by omega) hlt
                · exact hr (i - 1) i (by omega) (by omega) h1
              have := hinj (i - 1) i (by omega) (by omega) h0 h1 (by omega)
              omega
          subst hip
          intro j hj0 hj1
          by_cases hji : i ≤ j
          · exact hr i j (le_refl _) hji hj1
          · have b1 := hr i ((nums.length : Int) - 1) (le_refl _) (by omega) (by omega)
            have b2 := hl 0 j (le_refl _) hj0 (by omega)
            omega
  intro j hj0 hj1 hji
  have h2 := hmin j hj0 hj1
  rcases lt_or_eq_of_le h2 with h3 | h3
  · exact h3
  · exact absurd (hinj i j h0 h1 hj0 hj1 h3).symm hji

/-- Witness for C16: `[1,2,3,4,5]` rotated by 2 is `[3,4,5,1,2]`, and the index
returned is 3. -/
theorem findMin_strict_rotated_witness :
    List.Sorted (· < ·) ([1, 2, 3, 4, 5] : List Int) ∧ ([1, 2, 3, 4, 5] : List Int) ≠ [] ∧
    (findMin (([1, 2, 3, 4, 5] : List Int).rotate 2)).result = Outcome.value 3 ∧
    ∃ i, (findMin (([1, 2, 3, 4, 5] : List Int).rotate 2)).result = Outcome.value i ∧
      0 ≤ i ∧ i < (([1, 2, 3, 4, 5] : List Int).rotate 2).length ∧
      ∀ j : Int, 0 ≤ j → j < (([1, 2, 3, 4, 5] : List Int).rotate 2).length → j ≠ i →
        valAt (([1, 2, 3, 4, 5] : List Int).rotate 2) i <
          valAt (([1, 2, 3, 4, 5] : List Int).rotate 2) j :=
  ⟨by decide, by decide, by decide,
    findMin_strict_rotated [1, 2, 3, 4, 5] 2 (by decide) (by decide)⟩

/-! ## Number of loop iterations -/

theorem iterBound_mono (a b : Nat) (h : a ≤ b) : iterBound a ≤ iterBound b := by
  unfold iterBound
  by_cases ha : a = 0
  · simp [ha]
  · have hb : b ≠ 0 := by omega
    rw [if_neg ha, if_neg hb]
    exact Nat.add_le_add_right (Nat.log_mono_right h) 1

theorem iterBound_half (k : Nat) (hk : 1 ≤ k) : iterBound (k / 2) + 1 ≤ iterBound k := by
  unfold iterBound
  rw [if_neg (by omega : k ≠ 0)]
  by_cases h2 : k / 2 = 0
  · rw [if_pos h2]; omega
  · rw [if_neg h2, Nat.log_div_base]
    have : 0 < Nat.log 2 k := Nat.log_pos (by omega) (by omega)
    omega

/-- The loop body is entered at most `iterBound (end - start + 1)` more times. -/
theorem searchLoop_iters (nums : List Int) :
    ∀ (fuel : Nat) (s e : Int) (cnt : Nat), 0 ≤ s → e < nums.length → s ≤ e + 1 →
      (searchLoop nums nums.length fuel s e cnt).iters ≤
        cnt + iterBound (e - s + 1).toNat := by
  intro fuel
  induction fuel with
  | zero => intro s e cnt _ _ _; simp [searchLoop]
  | succ fuel ih =>
    intro s e cnt h0 h1 h2
    by_cases hse : s ≤ e
    · have hm := mid_range s e hse
      have hhalf := iterBound_half (e - s + 1).toNat (by omega)
      rw [searchLoop_step nums fuel s e cnt h0 hse h1]
      generalize s + (e - s).tdiv 2 = m at hm ⊢
      split_ifs with hp hd
      · show cnt + 1 ≤ _
        omega
      · have h3 := ih (m + 1) e (cnt + 1) (by omega) h1 (by omega)
        have h4 := iterBound_mono (e - (m + 1) + 1).toNat ((e - s + 1).toNat / 2) (by omega)
        omega
      · have h3 := ih s (m - 1) (cnt + 1) h0 (by omega) (by omega)
        have h4 := iterBound_mono (m - 1 - s + 1).toNat ((e - s + 1).toNat / 2) (by omega)
        omega
    · rw [searchLoop_exit nums _ fuel s e cnt hse]
      show cnt ≤ _
      omega

/-- C17: on every non-empty sequence the search terminates with a returned
value; each iteration that does not return leaves a window `[mid+1, end]` or
`[start, mid-1]` of at most half the size (rounded down) of `[start, end]`, and
the loop body is executed at most `⌊log₂ n⌋ + 1` times. -/
theorem findMin_iterations (nums : List Int) (hne : nums ≠ []) :
    (∃ r, (findMin nums).result = Outcome.value r) ∧
    (findMin nums).iters ≤ Nat.log 2 nums.length + 1 ∧
    (∀ s e : Int, s ≤ e →
      e - (s + (e - s).tdiv 2 + 1) + 1 ≤ (e - s + 1) / 2 ∧
      (s + (e - s).tdiv 2 - 1) - s + 1 ≤ (e - s + 1) / 2) := by
  have hpos : 0 < nums.length := List.length_pos.mpr hne
  refine ⟨?_, ?_, ?_⟩
  · rw [findMin_nonempty nums hne]
    split_ifs with hfast
    · exact ⟨0, rfl⟩
    · obtain ⟨r, hr, _⟩ := searchLoop_safe nums (nums.length + 1) 0
        ((nums.length : Int) - 1) 0 (le_refl _) (by omega) (by omega) (by push_cast; omega)
      exact ⟨r, hr⟩
  · rw [findMin_nonempty nums hne]
    split_ifs with hfast
    · exact Nat.zero_le _
    · have h := searchLoop_iters nums (nums.length + 1) 0 ((nums.length : Int) - 1) 0
        (le_refl _) (by omega) (by omega)
      have e : ((nums.length : Int) - 1 - 0 + 1).toNat = nums.length := by omega
      rw [e] at h
      unfold iterBound at h
      rw [if_neg (by omega)] at h
      omega
  · intro s e hse
    have hm := mid_range s e hse
    omega

/-- Witness for C17: `[3,2,1,2]` needs two iterations, and `⌊log₂ 4⌋ + 1 = 3`. -/
theorem findMin_iterations_witness :
    ([3, 2, 1, 2] : List Int) ≠ [] ∧ (findMin [3, 2, 1, 2]).iters = 2 ∧
    (findMin [3, 2, 1, 2]).iters ≤ Nat.log 2 ([3, 2, 1, 2] : List Int).length + 1 :=
  ⟨by decide, by decide, (findMin_iterations [3, 2, 1, 2] (by decide)).2.1⟩

/-- C18: `[3,2,1,2]` is not a rotation of a non-decreasing sequence, and on it
`findMin` leaves the loop without a successful pivot test and returns `-1`. -/
theorem findMin_sentinel_reachable :
    ([3, 2, 1, 2] : List Int) ≠ [] ∧ ¬ IsRotatedSorted [3, 2, 1, 2] ∧
    (findMin [3, 2, 1, 2]).result = Outcome.value (-1) := by
  refine ⟨by decide, ?_, by decide⟩
  intro hrot
  rcases rotated_cases _ hrot with hmono | ⟨p, hp1, hpn, hl, hr, _, _⟩
  · exact absurd (hmono 0 1 (by decide) (by decide) (by decide)) (by decide)
  · have hp4 : p < 4 := hpn
    by_cases h1 : p = 1
    · subst h1
      exact absurd (hr 1 2 (by decide) (by decide) (by decide)) (by decide)
    · exact absurd (hl 0 1 (by decide) (by decide) (by omega)) (by decide)

end FindMin

/-! ## Theorems: `helper` (src/example.cpp): longest substring without a repeated character -/

namespace LongestSubstr

theorem NoRep.mono {s : List Char} {a b a2 b2 : Nat} (h : NoRep s a b) (ha : a ≤ a2)
    (hb : b2 ≤ b) : NoRep s a2 b2 :=
  fun i j hi hij hj => h i j (by omega) hij (by omega)

theorem NoRep.extend {s : List Char} {a r : Nat} (h : NoRep s a r)
    (hnew : ∀ i, a ≤ i → i < r → s[i]? ≠ s[r]?) : NoRep s a (r + 1) := by
  intro i j hi hij hj
  by_cases hjr : j = r
  · subst hjr; exact hnew i hi hij
  · exact h i j hi hij (by omega)

/-- The new window start after reading `s[r] = c`. -/
theorem step_window (s : List Char) (r : Nat) (st : Window) (c : Char)
    (hr : s[r]? = some c) (hinv : Inv s r st) :
    ∃ ln : Nat, (step st r c).l = ln ∧ ln ≤ r ∧ NoRep s ln (r + 1) ∧
      ∀ a, a < ln → ¬ NoRep s a (r + 1) := by
  obtain ⟨ln, hl, hlr, hsome, hnone, hno, hmax, _, _⟩ := hinv
  have hstay : (∀ i, ln ≤ i → i < r → s[i]? ≠ some c) →
      NoRep s ln (r + 1) ∧ ∀ a, a < ln → ¬ NoRep s a (r + 1) := by
    intro hfree
    refine ⟨hno.extend (by rw [hr]; exact hfree), ?_⟩
    intro a ha hn
    exact hmax a ha (hn.mono (le_refl _) (by omega))
  cases hlast : st.lastidx c with
  | none =>
    have e : (step st r c).l = ln := by simp [step, hlast, hl]
    obtain ⟨h1, h2⟩ := hstay (fun i _ hi => hnone c hlast i hi)
    exact ⟨ln, e, hlr, h1, h2⟩
  | some j =>
    obtain ⟨jn, hj, hjr, hjc, hafter⟩ := hsome c j hlast
    by_cases hge : j ≥ st.l
    · have e : (step st r c).l = ((jn + 1 : Nat) : Int) := by
        show (match st.lastidx c with
          | some j => if j ≥ st.l then j + 1 else st.l
          | none => st.l) = _
        rw [hlast]
        simp only
        rw [if_pos hge, hj]
        push_cast
        rfl
      refine ⟨jn + 1, e, by omega, ?_, ?_⟩
      · apply (hno.mono (by omega) (le_refl _)).extend
        intro i hi hir
        rw [hr]
        exact hafter i (by omega) hir
      · intro a ha hn
        exact hn jn r (by omega) hjr (by omega) (by rw [hjc, hr])
    · have e : (step st r c).l = ln := by
        show (match st.lastidx c with
          | some j => if j ≥ st.l then j + 1 else st.l
          | none => st.l) = _
        rw [hlast]
        simp only
        rw [if_neg hge, hl]
      obtain ⟨h1, h2⟩ := hstay (fun i hi hir => hafter i (by omega) hir)
      exact ⟨ln, e, hlr, h1, h2⟩

/-- The invariant is kept by one loop iteration. -/
theorem step_inv (s : List Char) (r : Nat) (st : Window) (c : Char)
    (hr : s[r]? = some c) (hinv : Inv s r st) : Inv s (r + 1) (step st r c) := by
  obtain ⟨ln2, hl2, hlr2, hno2, hmax2⟩ := step_window s r st c hr hinv
  obtain ⟨ln, hl, hlr, hsome, hnone, hno, hmax, hub, a0, b0, hab0, hb0, hno0, hans0⟩ := hinv
  have hans : (step st r c).ans = max st.ans ((r : Int) - ln2 + 1) := by
    rw [← hl2]; rfl
  have hidx : (step st r c).lastidx = fun d => if d = c then some (r : Int) else st.lastidx d :=
    rfl
  refine ⟨ln2, hl2, by omega, ?_, ?_, hno2, hmax2, ?_, ?_⟩
  · intro d j hd
    rw [hidx] at hd
    by_cases hdc : d = c
    · subst hdc
      simp only [if_pos rfl] at hd
      have hj : j = (r : Int) := (Option.some.inj hd).symm
      exact ⟨r, hj, by omega, hr, fun k h1 h2 => by omega⟩
    · simp only [if_neg hdc] at hd
      obtain ⟨jn, hj, hjr, hjc, hafter⟩ := hsome d j hd
      refine ⟨jn, hj, by omega, hjc, ?_⟩
      intro k h1 h2
      by_cases hkr : k = r
      · subst hkr
        rw [hr]
        intro h
        exact hdc (Option.some.inj h).symm
      · exact hafter k h1 (by omega)
  · intro d hd k hk
    rw [hidx] at hd
    by_cases hdc : d = c
    · subst hdc
      simp at hd
    · simp only [if_neg hdc] at hd
      by_cases hkr : k = r
      · subst hkr
        rw [hr]
        intro h
        exact hdc (Option.some.inj h).symm
      · exact hnone d hd k (by omega)
  · intro a b hab hb hn
    rw [hans]
    by_cases hbr : b ≤ r
    · exact le_trans (hub a b hab hbr hn) (le_max_left _ _)
    · have hb1 : b = r + 1 := by omega
      subst hb1
      have hal : ln2 ≤ a := by
        by_contra hlt
        exact hmax2 a (by omega) hn
      refine le_trans ?_ (le_max_right _ _)
      omega
  · rw [hans]
    rcases max_choice st.ans ((r : Int) - ln2 + 1) with h | h
    · rw [h]
      exact ⟨a0, b0, hab0, by omega, hno0, hans0⟩
    · rw [h]
      exact ⟨ln2, r + 1, by omega, le_refl _, hno2, by omega⟩

/-- The invariant holds when the loop ends. -/
theorem helperLoop_inv (s : List Char) :
    ∀ (rest : List Char) (r : Nat) (st : Window), s.drop r = rest → r ≤ s.length →
      Inv s r st → Inv s s.length (helperLoop rest r st) := by
  intro rest
  induction rest with
  | nil =>
    intro r st hdrop hr hinv
    have : s.length ≤ r := List.drop_eq_nil_iff.mp hdrop
    have e : r = s.length := by omega
    subst e
    exact hinv
  | cons c cs ih =>
    intro r st hdrop hr hinv
    have hlt : r < s.length := by
      by_contra hge
      rw [List.drop_eq_nil_iff.mpr (by omega)] at hdrop
      simp at hdrop
    have hc : s[r]? = some c := by
      have := List.getElem?_drop s r 0
      rw [hdrop] at this
      simpa using this.symm
    have hcs : s.drop (r + 1) = cs := by
      have : (s.drop r).drop 1 = cs := by rw [hdrop]; rfl
      rw [List.drop_drop] at this
      exact this
    have := ih (r + 1) (step st r c) hcs hlt (step_inv s r st c hc hinv)
    rw [helperLoop]
    have e : ((r : Int) + 1) = ((r + 1 : Nat) : Int) := by push_cast; rfl
    rw [e]
    exact this

theorem inv_init (s : List Char) : Inv s 0 ⟨0, 0, fun _ => none⟩ := by
  refine ⟨0, rfl, le_refl _, ?_, ?_, ?_, ?_, ?_, ?_⟩
  · intro c j h; simp at h
  · intro c _ k hk; omega
  · intro i j _ _ hj; omega
  · intro a ha; omega
  · intro a b hab hb _; simp; omega
  · exact ⟨0, 0, le_refl _, le_refl _, fun i j _ _ hj => by omega, by simp⟩

/-- A repetition-free block of positions is a duplicate-free substring. -/
theorem infix_of_noRep (s : List Char) (a b : Nat) (hab : a ≤ b) (hb : b ≤ s.length)
    (h : NoRep s a b) :
    ∃ t, t <:+: s ∧ t.Nodup ∧ t.length = b - a := by
  refine ⟨(s.drop a).take (b - a),
    (List.take_prefix _ _).isInfix.trans (List.drop_suffix _ _).isInfix, ?_, ?_⟩
  · rw [List.nodup_iff_getElem?_ne_getElem?]
    intro i j hij hj
    have hj2 : j < b - a := by
      have := hj
      rw [List.length_take] at this
      omega
    rw [List.getElem?_take, List.getElem?_take, if_pos (by omega), if_pos hj2,
      List.getElem?_drop, List.getElem?_drop]
    exact h (a + i) (a + j) (by omega) (by omega) (by omega)
  · rw [List.length_take, List.length_drop]
    omega

/-- A duplicate-free substring occupies a repetition-free block of positions. -/
theorem noRep_of_infix (s t : List Char) (hin : t <:+: s) (hnd : t.Nodup) :
    ∃ a b, a ≤ b ∧ b ≤ s.length ∧ NoRep s a b ∧ t.length = b - a := by
  obtain ⟨p, q, rfl⟩ := hin
  refine ⟨p.length, p.length + t.length, by omega, by simp, ?_, by omega⟩
  intro i j hi hij hj
  have e : ∀ k, p.length ≤ k → k < p.length + t.length →
      (p ++ t ++ q)[k]? = t[k - p.length]? := by
    intro k hk1 hk2
    rw [List.getElem?_append_left (by simp; omega), List.getElem?_append_right hk1]
  rw [e i hi (by omega), e j (by omega) hj]
  exact (List.nodup_iff_getElem?_ne_getElem?.mp hnd) _ _ (by omega) (by omega)

/-- C11: `helper s` is the maximum length of a contiguous substring of `s`
without a repeated character: some such substring has this length and none is
longer.  It is 0 on the empty string, 3 on `"abcabcbb"`, 1 on `"bbbbb"` and 3 on
`"pwwkew"`. -/
theorem helper_spec (s : List Char) :
    (∃ t, t <:+: s ∧ t.Nodup ∧ (t.length : Int) = helper s) ∧
    (∀ t, t <:+: s → t.Nodup → (t.length : Int) ≤ helper s) ∧
    helper [] = 0 ∧
    helper ['a', 'b', 'c', 'a', 'b', 'c', 'b', 'b'] = 3 ∧
    helper ['b', 'b', 'b', 'b', 'b'] = 1 ∧
    helper ['p', 'w', 'w', 'k', 'e', 'w'] = 3 := by
  have hinv := helperLoop_inv s s 0 ⟨0, 0, fun _ => none⟩ rfl (Nat.zero_le _) (inv_init s)
  obtain ⟨_, _, _, _, _, _, _, hub, a, b, hab, hb, hno, hans⟩ := hinv
  refine ⟨?_, ?_, by decide, by decide, by decide, by decide⟩
  · obtain ⟨t, h1, h2, h3⟩ := infix_of_noRep s a b hab hb hno
    refine ⟨t, h1, h2, ?_⟩
    unfold helper
    have e : ((0 : Nat) : Int) = 0 := rfl
    rw [e] at hans
    rw [hans, h3]
  · intro t hin hnd
    obtain ⟨a2, b2, hab2, hb2, hno2, hlen⟩ := noRep_of_infix s t hin hnd
    have := hub a2 b2 hab2 hb2 hno2
    unfold helper
    have e : ((0 : Nat) : Int) = 0 := rfl
    rw [e] at this
    rw [hlen]
    exact this

end LongestSubstr

/-! ## Theorems: `suma` and `isGreater` (src/7.cpp): binary numerals as strings -/

namespace BinStr

theorem binVal_concat (l : List Char) (c : Char) :
    binVal (l ++ [c]) = 2 * binVal l + bitOf c := by
  simp [binVal, List.foldl_append]

theorem binVal_reverse (l : List Char) : binVal l.reverse = valLE l := by
  induction l with
  | nil => rfl
  | cons c cs ih =>
    rw [List.reverse_cons, binVal_concat, ih, valLE]
    omega

theorem valLE_concat (l : List Char) (c : Char) :
    valLE (l ++ [c]) = valLE l + bitOf c * 2 ^ l.length := by
  induction l with
  | nil => simp [valLE]
  | cons d ds ih =>
    show valLE (d :: (ds ++ [c])) = _
    rw [valLE, ih, valLE, List.length_cons, pow_succ]
    ring

theorem digitOf_binary (c : Char) (h : c = '0' ∨ c = '1') : digitOf c = bitOf c := by
  rcases h with h | h <;> subst h <;> decide

/-- Value of the first `i + 1` digits in terms of the first `i`. -/
theorem valLE_take_succ (a : List Char) (ha : IsBinary a) (i : Nat) :
    ((valLE (a.take (i + 1)) : Nat) : Int) =
      valLE (a.take i) + (match a[i]? with
        | some c => digitOf c
        | none => 0) * 2 ^ i := by
  rw [List.take_succ]
  by_cases h : i < a.length
  · rw [List.getElem?_eq_getElem h]
    simp only [Option.toList_some]
    rw [valLE_concat, digitOf_binary _ (ha _ (List.getElem_mem h))]
    simp [List.length_take, Nat.min_eq_left (le_of_lt h)]
  · rw [List.getElem?_eq_none (by omega)]
    simp

theorem charOf_bit (v : Int) (h0 : 0 ≤ v) (h1 : v ≤ 1) :
    (charOf v = '0' ∨ charOf v = '1') ∧ (bitOf (charOf v) : Int) = v := by
  have : v = 0 ∨ v = 1 := by omega
  rcases this with h | h <;> subst h <;> decide

/-- The loop invariant of `sumaLoop`: `res` holds the low `i` digits of the sum
of the low `i` digits of `a` and `b`, and `carry` the overflow. -/
theorem sumaLoop_spec (a b : List Char) (ha : IsBinary a) (hb : IsBinary b) :
    ∀ (k i : Nat) (carry : Int) (res : List Char),
      0 ≤ carry → carry ≤ 1 → IsBinary res → res.length = i →
      (valLE res : Int) + carry * 2 ^ i = valLE (a.take i) + valLE (b.take i) →
      0 ≤ (sumaLoop a b k i carry res).2 ∧ (sumaLoop a b k i carry res).2 ≤ 1 ∧
      IsBinary (sumaLoop a b k i carry res).1 ∧
      (sumaLoop a b k i carry res).1.length = i + k ∧
      (valLE (sumaLoop a b k i carry res).1 : Int) +
          (sumaLoop a b k i carry res).2 * 2 ^ (i + k) =
        valLE (a.take (i + k)) + valLE (b.take (i + k)) := by
  intro k
  induction k with
  | zero =>
    intro i carry res h0 h1 hres hlen heq
    exact ⟨h0, h1, hres, hlen, heq⟩
  | succ k ih =>
    intro i carry res h0 h1 hres hlen heq
    have hx : ∀ (l : List Char), IsBinary l →
        0 ≤ (match l[i]? with | some c => digitOf c | none => (0 : Int)) ∧
        (match l[i]? with | some c => digitOf c | none => (0 : Int)) ≤ 1 := by
      intro l hl
      by_cases h : i < l.length
      · rw [List.getElem?_eq_getElem h]
        simp only
        rw [digitOf_binary _ (hl _ (List.getElem_mem h))]
        unfold bitOf
        split_ifs <;> simp
      · rw [List.getElem?_eq_none (by omega)]
        simp
    have ea := valLE_take_succ a ha i
    have eb := valLE_take_succ b hb i
    have hxa := hx a ha
    have hxb := hx b hb
    rw [sumaLoop]
    generalize (match a[i]? with | some c => digitOf c | none => (0 : Int)) = x at ea hxa ⊢
    generalize (match b[i]? with | some c => digitOf c | none => (0 : Int)) = y at eb hxb ⊢
    have hs0 : 0 ≤ x + y + carry := by omega
    have hdiv : (x + y + carry).tdiv 2 = (x + y + carry) / 2 :=
      Int.tdiv_eq_ediv hs0 (by decide)
    have hmod : (x + y + carry).tmod 2 = (x + y + carry) % 2 :=
      Int.tmod_eq_emod hs0 (by decide)
    rw [hdiv, hmod]
    have hc := charOf_bit ((x + y + carry) % 2) (by omega) (by omega)
    have hres2 : IsBinary (res ++ [charOf ((x + y + carry) % 2)]) := by
      intro c hcm
      rcases List.mem_append.mp hcm with h | h
      · exact hres c h
      · rw [List.mem_singleton] at h
        rw [h]; exact hc.1
    have key := ih (i + 1) ((x + y + carry) / 2) (res ++ [charOf ((x + y + carry) % 2)])
      (by omega) (by omega) hres2 (by simp [hlen]) (by
        rw [valLE_concat, hlen, ea, eb]
        push_cast
        rw [hc.2]
        have hdm := Int.ediv_add_emod (x + y + carry) 2
        have e2 : (2 : Int) ^ (i + 1) = 2 * 2 ^ i := by ring
        rw [e2]
        linear_combination heq + (2 : Int) ^ i * hdm)
    have e3 : i + 1 + k = i + (k + 1) := by omega
    rw [e3] at key
    exact key

/-- C12: for strings `a` and `b` over `'0'` and `'1'`, `suma a b` is a string
over `'0'` and `'1'` whose binary value is the sum of the values of `a` and `b`;
`suma "101" "100" = "1001"`. -/
theorem suma_spec (a b : List Char) (ha : IsBinary a) (hb : IsBinary b) :
    IsBinary (suma a b) ∧ binVal (suma a b) = binVal a + binVal b := by
  have hra : IsBinary a.reverse := fun c hc => ha c (List.mem_reverse.mp hc)
  have hrb : IsBinary b.reverse := fun c hc => hb c (List.mem_reverse.mp hc)
  obtain ⟨h0, h1, hbin, hlen, heq⟩ := sumaLoop_spec a.reverse b.reverse hra hrb
    (max a.reverse.length b.reverse.length) 0 0 [] (le_refl _) (by decide)
    (by intro c hc; simp at hc) rfl (by simp [valLE])
  rw [Nat.zero_add] at hlen heq
  have eA : valLE a.reverse = binVal a := by rw [← binVal_reverse, List.reverse_reverse]
  have eB : valLE b.reverse = binVal b := by rw [← binVal_reverse, List.reverse_reverse]
  rw [List.take_of_length_le (le_max_left _ _), List.take_of_length_le (le_max_right _ _),
    eA, eB] at heq
  unfold suma
  simp only
  generalize sumaLoop a.reverse b.reverse (max a.reverse.length b.reverse.length) 0 0 [] = out
    at h0 h1 hbin hlen heq ⊢
  by_cases hc : out.2 = 0
  · rw [if_neg (by simpa using hc)]
    rw [hc] at heq
    refine ⟨fun c hcm => hbin c (List.mem_reverse.mp hcm), ?_⟩
    rw [binVal_reverse]
    have : ((valLE out.1 : Nat) : Int) = ((binVal a + binVal b : Nat) : Int) := by
      push_cast; linarith
    exact_mod_cast this
  · rw [if_pos hc]
    have hc1 : out.2 = 1 := by omega
    rw [hc1] at heq
    constructor
    · intro c hcm
      rcases List.mem_append.mp (List.mem_reverse.mp hcm) with h | h
      · exact hbin c h
      · rw [List.mem_singleton] at h
        exact Or.inr h
    · rw [binVal_reverse, valLE_concat, hlen]
      have : ((valLE out.1 + bitOf '1' * 2 ^ max a.reverse.length b.reverse.length : Nat) : Int)
          = ((binVal a + binVal b : Nat) : Int) := by
        have hb1 : bitOf '1' = 1 := by decide
        rw [hb1]
        push_cast
        linarith
      exact_mod_cast this

/-- Witness for C12: the first pair of `main`, `"101"` and `"100"`. -/
theorem suma_spec_witness :
    IsBinary ['1', '0', '1'] ∧ IsBinary ['1', '0', '0'] ∧
    suma ['1', '0', '1'] ['1', '0', '0'] = ['1', '0', '0', '1'] ∧
    binVal (suma ['1', '0', '1'] ['1', '0', '0']) =
      binVal ['1', '0', '1'] + binVal ['1', '0', '0'] :=
  have h1 : IsBinary ['1', '0', '1'] := by intro c hc; simp at hc; rcases hc with h | h | h <;> simp [h]
  have h2 : IsBinary ['1', '0', '0'] := by intro c hc; simp at hc; rcases hc with h | h <;> simp [h]
  ⟨h1, h2, by decide, (suma_spec _ _ h1 h2).2⟩

theorem foldl_bin (l : List Char) (v : Nat) :
    l.foldl (fun v c => 2 * v + bitOf c) v =
      v * 2 ^ l.length + l.foldl (fun v c => 2 * v + bitOf c) 0 := by
  induction l generalizing v with
  | nil => simp
  | cons c cs ih =>
    rw [List.foldl_cons, ih, List.foldl_cons, ih (2 * 0 + bitOf c), List.length_cons, pow_succ]
    ring

theorem binVal_cons (c : Char) (cs : List Char) :
    binVal (c :: cs) = bitOf c * 2 ^ cs.length + binVal cs := by
  unfold binVal
  rw [List.foldl_cons, foldl_bin]
  simp

theorem bitOf_le_one (c : Char) : bitOf c ≤ 1 := by
  unfold bitOf; split_ifs <;> omega

theorem binVal_lt (l : List Char) : binVal l < 2 ^ l.length := by
  induction l with
  | nil => simp [binVal]
  | cons c cs ih =>
    rw [binVal_cons, List.length_cons, pow_succ]
    have h1 := bitOf_le_one c
    have h2 : bitOf c * 2 ^ cs.length ≤ 1 * 2 ^ cs.length := Nat.mul_le_mul_right _ h1
    omega

/-- On binary strings of equal length the lexicographic order is the numeric one. -/
theorem strGt_eq_length (a : List Char) :
    ∀ b : List Char, IsBinary a → IsBinary b → a.length = b.length →
      (strGt a b = true ↔ binVal b < binVal a) := by
  induction a with
  | nil =>
    intro b _ _ hlen
    have : b = [] := List.length_eq_zero.mp hlen.symm
    subst this
    simp [strGt]
  | cons x xs ih =>
    intro b ha hb hlen
    cases b with
    | nil => simp at hlen
    | cons y ys =>
      have hlen2 : xs.length = ys.length := by simpa using hlen
      have hxs : IsBinary xs := fun c hc => ha c (List.mem_cons_of_mem _ hc)
      have hys : IsBinary ys := fun c hc => hb c (List.mem_cons_of_mem _ hc)
      have h1 := binVal_lt xs
      have h2 := binVal_lt ys
      rw [binVal_cons, binVal_cons, ← hlen2]
      rw [← hlen2] at h2
      have hpos : 0 < 2 ^ xs.length := Nat.pow_pos (by decide)
      rcases ha x (List.mem_cons_self _ _) with hx | hx <;>
        rcases hb y (List.mem_cons_self _ _) with hy | hy <;> subst hx <;> subst hy
      · have e : strGt ('0' :: xs) ('0' :: ys) = strGt xs ys := by
          rw [strGt, if_neg (by decide), if_neg (by decide)]
        rw [e, ih ys hxs hys hlen2]
        have hb0 : bitOf '0' = 0 := by decide
        rw [hb0]; omega
      · have e : strGt ('0' :: xs) ('1' :: ys) = false := by
          rw [strGt, if_neg (by decide), if_pos (by decide)]
        rw [e]
        have hb0 : bitOf '0' = 0 := by decide
        have hb1 : bitOf '1' = 1 := by decide
        rw [hb0, hb1]
        constructor
        · intro h; simp at h
        · intro h; omega
      · have e : strGt ('1' :: xs) ('0' :: ys) = true := by
          rw [strGt, if_pos (by decide)]
        rw [e]
        have hb0 : bitOf '0' = 0 := by decide
        have hb1 : bitOf '1' = 1 := by decide
        rw [hb0, hb1]
        constructor
        · intro _; omega
        · intro _; rfl
      · have e : strGt ('1' :: xs) ('1' :: ys) = strGt xs ys := by
          rw [strGt, if_neg (by decide), if_neg (by decide)]
        rw [e, ih ys hxs hys hlen2]
        omega

/-- A canonical numeral is non-empty, and with at least two digits its leading
digit is `'1'`, so its value is at least `2 ^ (length - 1)`. -/
theorem canonical_bounds (s : List Char) (hc : IsCanonical s) :
    1 ≤ s.length ∧ (2 ≤ s.length → 2 ^ (s.length - 1) ≤ binVal s) := by
  rcases hc with h | h
  · subst h
    exact ⟨by decide, by intro h; simp at h⟩
  · cases s with
    | nil => simp at h
    | cons c cs =>
      simp at h
      subst h
      refine ⟨by simp, fun _ => ?_⟩
      rw [binVal_cons]
      have hb1 : bitOf '1' = 1 := by decide
      rw [hb1]
      simp

/-- C13 as stated fails: `"01"` and `"1"` both denote 1, yet `isGreater`
answers `true` because `"01"` is longer. -/
theorem isGreater_leading_zero :
    IsBinary ['0', '1'] ∧ IsBinary ['1'] ∧
    isGreater ['0', '1'] ['1'] = true ∧ ¬ binVal ['1'] < binVal ['0', '1'] := by
  refine ⟨?_, ?_, by decide, by decide⟩
  · intro c hc; simp at hc; rcases hc with h | h <;> simp [h]
  · intro c hc; simp at hc; simp [hc]

/-- C13 amended: for strings over `'0'` and `'1'` that have the same length, or
that both are canonical (no leading zero), `isGreater a b` is true exactly when
the number denoted by `a` is strictly greater than the one denoted by `b`. -/
theorem isGreater_spec (a b : List Char) (ha : IsBinary a) (hb : IsBinary b)
    (h : a.length = b.length ∨ (IsCanonical a ∧ IsCanonical b)) :
    isGreater a b = true ↔ binVal b < binVal a := by
  by_cases hlen : a.length = b.length
  · unfold isGreater
    rw [if_neg (by simpa using hlen)]
    exact strGt_eq_length a b ha hb hlen
  · rcases h with h | ⟨hca, hcb⟩
    · exact absurd h hlen
    · unfold isGreater
      rw [if_pos hlen]
      obtain ⟨la, ba⟩ := canonical_bounds a hca
      obtain ⟨lb, bb⟩ := canonical_bounds b hcb
      have va := binVal_lt a
      have vb := binVal_lt b
      rw [decide_eq_true_iff]
      constructor
      · intro hgt
        have h1 := ba (by omega)
        have h2 : 2 ^ b.length ≤ 2 ^ (a.length - 1) :=
          Nat.pow_le_pow_right (by decide) (by omega)
        omega
      · intro hv
        by_contra hnot
        have hlt : a.length < b.length := by omega
        have h1 := bb (by omega)
        have h2 : 2 ^ a.length ≤ 2 ^ (b.length - 1) :=
          Nat.pow_le_pow_right (by decide) (by omega)
        omega

/-- Witness for C13 amended: the comparison of `"1001"` with the initial
maximum `"0"` in `fun`. -/
theorem isGreater_spec_witness :
    IsBinary ['1', '0', '0', '1'] ∧ IsBinary ['0'] ∧
    IsCanonical ['1', '0', '0', '1'] ∧ IsCanonical ['0'] ∧
    isGreater ['1', '0', '0', '1'] ['0'] = true ∧
    binVal ['0'] < binVal ['1', '0', '0', '1'] :=
  have h1 : IsBinary ['1', '0', '0', '1'] := by
    intro c hc; simp at hc; rcases hc with h | h | h <;> simp [h]
  have h2 : IsBinary ['0'] := by intro c hc; simp at hc; simp [hc]
  have h3 : IsCanonical ['1', '0', '0', '1'] := Or.inr rfl
  have h4 : IsCanonical ['0'] := Or.inl rfl
  ⟨h1, h2, h3, h4, by decide,
    (isGreater_spec _ _ h1 h2 (Or.inr ⟨h3, h4⟩)).mp (by decide)⟩

end BinStr

/-! ## Theorems: The next-greater-element scan (src/stack/nger.cpp) -/

namespace Nger

theorem ngerStep_eq (x : Int) (st res : List Int) :
    ngerStep x (st, res) =
      (x :: popWhile x st, res ++ [(popWhile x st).head?.getD (-1)]) := by
  unfold ngerStep
  cases st with
  | nil => simp [popWhile]
  | cons t st =>
    simp only
    by_cases h : t > x
    · rw [if_pos h]
      have : ¬ t ≤ x := by omega
      simp [popWhile, this]
    · rw [if_neg h]
      cases hp : popWhile x (t :: st) with
      | nil => simp
      | cons u st2 => simp

theorem popWhile_head (x : Int) (st : List Int) :
    (popWhile x st).head? = st.find? (fun y => decide (x < y)) := by
  induction st with
  | nil => simp [popWhile]
  | cons t st ih =>
    unfold popWhile
    by_cases h : t ≤ x
    · rw [if_pos h, ih, List.find?_cons_of_neg]
      simp; omega
    · rw [if_neg h, List.find?_cons_of_pos]
      · simp
      · simp; omega

theorem find_popWhile (x y : Int) (hyx : y ≤ x) (st : List Int) :
    (popWhile y st).find? (fun z => decide (x < z)) =
      st.find? (fun z => decide (x < z)) := by
  induction st with
  | nil => simp [popWhile]
  | cons t st ih =>
    unfold popWhile
    by_cases h : t ≤ y
    · rw [if_pos h, ih, List.find?_cons_of_neg]
      simp; omega
    · rw [if_neg h]

theorem find_stackOf (x : Int) (xs : List Int) :
    (stackOf xs).find? (fun z => decide (x < z)) = xs.find? (fun z => decide (x < z)) := by
  induction xs with
  | nil => simp [stackOf]
  | cons y ys ih =>
    unfold stackOf
    by_cases h : x < y
    · rw [List.find?_cons_of_pos _ (by simpa using h), List.find?_cons_of_pos _ (by simpa using h)]
    · rw [List.find?_cons_of_neg _ (by simpa using h), List.find?_cons_of_neg _ (by simpa using h),
        find_popWhile x y (by omega), ih]

theorem foldr_ngerStep (arr : List Int) :
    arr.foldr ngerStep ([], []) = (stackOf arr, (firstGreater arr).reverse) := by
  induction arr with
  | nil => simp [stackOf, firstGreater]
  | cons x xs ih =>
    rw [List.foldr_cons, ih, ngerStep_eq, popWhile_head, find_stackOf]
    simp [stackOf, firstGreater]

theorem nger_eq_firstGreater (arr : List Int) : nger arr = firstGreater arr := by
  unfold nger
  rw [foldr_ngerStep]
  simp

/-- Indexed reading of `find?`: the first position whose element exceeds `x`. -/
theorem find_greater_spec (x : Int) (xs : List Int) :
    (∃ m, m < xs.length ∧ x < xs.getD m 0 ∧ (∀ k, k < m → xs.getD k 0 ≤ x) ∧
        xs.find? (fun y => decide (x < y)) = some (xs.getD m 0)) ∨
    ((∀ k, k < xs.length → xs.getD k 0 ≤ x) ∧
        xs.find? (fun y => decide (x < y)) = none) := by
  induction xs with
  | nil => right; simp
  | cons y ys ih =>
    by_cases h : x < y
    · left
      refine ⟨0, by simp, by simpa using h, by intro k hk; omega, ?_⟩
      rw [List.find?_cons_of_pos _ (by simpa using h)]
      simp
    · rw [List.find?_cons_of_neg _ (by simpa using h)]
      rcases ih with ⟨m, hm, hgt, hbefore, hf⟩ | ⟨hall, hf⟩
      · left
        refine ⟨m + 1, by simp; omega, by simpa using hgt, ?_, by simpa using hf⟩
        intro k hk
        cases k with
        | zero => simp; omega
        | succ k => simpa using hbefore k (by omega)
      · right
        refine ⟨?_, hf⟩
        intro k hk
        cases k with
        | zero => simp; omega
        | succ k => simpa using hall k (by simpa using hk)

/-- The position-wise specification of `firstGreater`. -/
theorem firstGreater_spec (arr : List Int) :
    (firstGreater arr).length = arr.length ∧
    ∀ i, i < arr.length →
      (∃ j, i < j ∧ j < arr.length ∧ arr.getD i 0 < arr.getD j 0 ∧
          (∀ k, i < k → k < j → arr.getD k 0 ≤ arr.getD i 0) ∧
          (firstGreater arr).getD i 0 = arr.getD j 0) ∨
      ((∀ k, i < k → k < arr.length → arr.getD k 0 ≤ arr.getD i 0) ∧
          (firstGreater arr).getD i 0 = -1) := by
  induction arr with
  | nil => simp [firstGreater]
  | cons x xs ih =>
    obtain ⟨ihlen, ih⟩ := ih
    refine ⟨by simp [firstGreater, ihlen], ?_⟩
    intro i hi
    cases i with
    | zero =>
      rcases find_greater_spec x xs with ⟨m, hm, hgt, hbefore, hf⟩ | ⟨hall, hf⟩
      · left
        refine ⟨m + 1, by omega, by simp; omega, by simpa using hgt, ?_, ?_⟩
        · intro k hk1 hk2
          cases k with
          | zero => omega
          | succ k => simpa using hbefore k (by omega)
        · simp [firstGreater, hf]
      · right
        refine ⟨?_, by simp [firstGreater, hf]⟩
        intro k hk1 hk2
        cases k with
        | zero => omega
        | succ k => simpa using hall k (by simpa using hk2)
    | succ i =>
      have hi2 : i < xs.length := by simpa using hi
      rcases ih i hi2 with ⟨j, hj1, hj2, hgt, hbefore, hv⟩ | ⟨hall, hv⟩
      · left
        refine ⟨j + 1, by omega, by simp; omega, by simpa using hgt, ?_, ?_⟩
        · intro k hk1 hk2
          cases k with
          | zero => omega
          | succ k => simpa using hbefore k (by omega) (by omega)
        · simpa [firstGreater] using hv
      · right
        refine ⟨?_, by simpa [firstGreater] using hv⟩
        intro k hk1 hk2
        cases k with
        | zero => omega
        | succ k => simpa using hall k (by omega) (by simpa using hk2)

/-- C14: the scan yields a vector `res` as long as `arr`; for every index `i`,
either `res[i] = arr[j]` for the smallest `j > i` with `arr[j] > arr[i]`, or no
such `j` exists and `res[i] = -1`.  On the array of `main` it yields
`[15,8,10,15,15,-1,-1,-1]`. -/
theorem nger_spec (arr : List Int) :
    (nger arr).length = arr.length ∧
    (∀ i, i < arr.length →
      (∃ j, i < j ∧ j < arr.length ∧ arr.getD i 0 < arr.getD j 0 ∧
          (∀ k, i < k → k < j → arr.getD k 0 ≤ arr.getD i 0) ∧
          (nger arr).getD i 0 = arr.getD j 0) ∨
      ((∀ k, i < k → k < arr.length → arr.getD k 0 ≤ arr.getD i 0) ∧
          (nger arr).getD i 0 = -1)) ∧
    nger [12, 3, 8, 10, 5, 15, 9, 1] = [15, 8, 10, 15, 15, -1, -1, -1] := by
  rw [nger_eq_firstGreater]
  exact ⟨(firstGreater_spec arr).1, (firstGreater_spec arr).2, by decide⟩

end Nger

/-! ## Theorems: `Solution::Defeating` (src/5.cpp): the greedy fight order -/

namespace Defeat

theorem pairLe_total (p q : Int × Int) : pairLe p q ∨ pairLe q p := by
  unfold pairLe; omega

theorem pairLe_trans (p q r : Int × Int) (h1 : pairLe p q) (h2 : pairLe q r) :
    pairLe p r := by
  unfold pairLe at *; omega

theorem sort_sorted (l : List (Int × Int)) : List.Sorted pairLe (l.insertionSort pairLe) :=
  @List.sorted_insertionSort _ pairLe _ ⟨pairLe_total⟩ ⟨pairLe_trans⟩ l

theorem buildPairs_eq_zip (n : Int) (poweri bonusi : List Int)
    (hp : (poweri.length : Int) = n) (hb : (bonusi.length : Int) = n) :
    buildPairs n poweri bonusi = poweri.zip bonusi := by
  unfold buildPairs
  apply List.ext_getElem
  · simp; omega
  · intro i h1 h2
    have hi : i < n.toNat := by simpa using h1
    simp only [List.getElem_map, List.getElem_range, List.getElem_zip]
    rw [List.getD_eq_getElem _ _ (by omega), List.getD_eq_getElem _ _ (by omega)]

theorem fightLoop_acc (l : List (Int × Int)) :
    ∀ (exp c : Int), fightLoop l exp c = c + fightLoop l exp 0 := by
  induction l with
  | nil => intro exp c; simp [fightLoop]
  | cons p rest ih =>
    intro exp c
    unfold fightLoop
    split_ifs
    · rw [ih (exp + p.2) (c + 1), ih (exp + p.2) (0 + 1)]; ring
    · simp

theorem canDefeat_mono (seq : List (Int × Int)) :
    ∀ (e1 e2 : Int), e1 ≤ e2 → canDefeat e1 seq → canDefeat e2 seq := by
  induction seq with
  | nil => intro _ _ _ _; trivial
  | cons q t ih =>
    intro e1 e2 hle h
    exact ⟨le_trans h.1 hle, ih _ _ (by omega) h.2⟩

theorem removeOne_eq_erase {α : Type} [DecidableEq α] (p : α) (seq : List α) :
    removeOne p seq = seq.erase p := by
  induction seq with
  | nil => rfl
  | cons q t ih =>
    unfold removeOne
    by_cases hq : q = p
    · subst hq
      rw [if_pos rfl, List.erase_cons_head]
    · rw [if_neg hq, List.erase_cons_tail (by simpa using hq), ih]

theorem removeOne_subperm {α : Type} [DecidableEq α] (p : α) (seq rest : List α)
    (h : List.Subperm seq (p :: rest)) : List.Subperm (removeOne p seq) rest := by
  have := h.erase p
  rw [List.erase_cons_head] at this
  rw [removeOne_eq_erase]
  exact this

theorem removeOne_length {α : Type} [DecidableEq α] (p : α) (seq : List α) :
    seq.length ≤ (removeOne p seq).length + 1 := by
  induction seq with
  | nil => simp [removeOne]
  | cons q t ih =>
    unfold removeOne
    split_ifs
    · simp
    · simp; omega

/-- Taking one fight with a non-negative bonus out of a feasible sequence and
carrying it out first leaves the rest feasible. -/
theorem canDefeat_removeOne (p : Int × Int) (hp : 0 ≤ p.2) (seq : List (Int × Int)) :
    ∀ e : Int, canDefeat e seq → canDefeat (e + p.2) (removeOne p seq) := by
  induction seq with
  | nil => intro _ _; trivial
  | cons q t ih =>
    intro e h
    unfold removeOne
    by_cases hq : q = p
    · subst hq
      rw [if_pos rfl]
      exact h.2
    · rw [if_neg hq]
      refine ⟨by have := h.1; omega, ?_⟩
      have := ih (e + q.2) h.2
      rw [add_right_comm] at this
      exact this

/-- No feasible sequence drawn from a list sorted by power is longer than the
run of the greedy loop over that list. -/
theorem fightLoop_upper (l : List (Int × Int)) :
    List.Sorted pairLe l → (∀ p ∈ l, 0 ≤ p.2) →
      ∀ (e : Int) (seq : List (Int × Int)), List.Subperm seq l → canDefeat e seq →
        (seq.length : Int) ≤ fightLoop l e 0 := by
  induction l with
  | nil =>
    intro _ _ e seq hsub _
    rw [List.subperm_nil.mp hsub]
    simp [fightLoop]
  | cons p rest ih =>
    intro hs hnn e seq hsub hcan
    have hs2 := List.sorted_cons.mp hs
    unfold fightLoop
    by_cases hpe : p.1 ≤ e
    · rw [if_pos hpe, fightLoop_acc]
      have hsub2 : List.Subperm (removeOne p seq) rest := removeOne_subperm p seq rest hsub
      have hcan2 : canDefeat (e + p.2) (removeOne p seq) :=
        canDefeat_removeOne p (hnn p (List.mem_cons_self _ _)) seq e hcan
      have h1 := ih hs2.2 (fun q hq => hnn q (List.mem_cons_of_mem _ hq)) (e + p.2)
        (removeOne p seq) hsub2 hcan2
      have h2 := removeOne_length p seq
      omega
    · rw [if_neg hpe]
      cases seq with
      | nil => simp
      | cons q t =>
        exfalso
        have hq : q ∈ p :: rest := hsub.subset (List.mem_cons_self _ _)
        have hq1 := hcan.1
        rcases List.mem_cons.mp hq with h | h
        · subst h; exact hpe hq1
        · have := hs2.1 q h
          unfold pairLe at this
          omega

/-- The enemies beaten by the greedy loop form a feasible sequence. -/
theorem fightLoop_attained (l : List (Int × Int)) :
    ∀ e : Int, ∃ seq, List.Sublist seq l ∧ canDefeat e seq ∧ (seq.length : Int) = fightLoop l e 0 := by
  induction l with
  | nil => intro e; exact ⟨[], List.Sublist.refl _, trivial, by simp [fightLoop]⟩
  | cons p rest ih =>
    intro e
    unfold fightLoop
    by_cases hpe : p.1 ≤ e
    · rw [if_pos hpe, fightLoop_acc]
      obtain ⟨seq, h1, h2, h3⟩ := ih (e + p.2)
      exact ⟨p :: seq, h1.cons₂ p, ⟨hpe, h2⟩, by simp; omega⟩
    · rw [if_neg hpe]
      exact ⟨[], List.nil_sublist _, trivial, by simp⟩

/-- C19: with arrays of length `n` and non-negative bonuses, `Defeating` is the
largest number of enemies that any order of fights can defeat: some feasible
sequence of distinct enemies has that length and no feasible sequence is
longer.  On the input of `main` the result is 1. -/
theorem defeating_optimal (n exp : Int) (poweri bonusi : List Int)
    (hp : (poweri.length : Int) = n) (hb : (bonusi.length : Int) = n)
    (hnn : ∀ s ∈ bonusi, 0 ≤ s) :
    (∃ seq, List.Subperm seq (poweri.zip bonusi) ∧ canDefeat exp seq ∧
      (seq.length : Int) = Defeating n exp poweri bonusi) ∧
    (∀ seq, List.Subperm seq (poweri.zip bonusi) → canDefeat exp seq →
      (seq.length : Int) ≤ Defeating n exp poweri bonusi) ∧
    Defeating 3 128 [121, 130, 135] [0, 0, 20] = 1 := by
  unfold Defeating
  rw [buildPairs_eq_zip n poweri bonusi hp hb]
  have hperm := List.perm_insertionSort pairLe (poweri.zip bonusi)
  have hsorted := sort_sorted (poweri.zip bonusi)
  have hnn2 : ∀ p ∈ (poweri.zip bonusi).insertionSort pairLe, 0 ≤ p.2 := by
    intro p hpm
    have hz : p ∈ poweri.zip bonusi := hperm.subset hpm
    exact hnn p.2 (List.of_mem_zip hz).2
  refine ⟨?_, ?_, by decide⟩
  · obtain ⟨seq, h1, h2, h3⟩ := fightLoop_attained _ exp
    exact ⟨seq, h1.subperm.trans hperm.subperm, h2, h3⟩
  · intro seq hsub hcan
    exact fightLoop_upper _ hsorted hnn2 exp seq (hsub.trans hperm.symm.subperm) hcan

/-- Witness for C19: the input of `main`, where only the enemy of power 121 can
be defeated. -/
theorem defeating_optimal_witness :
    (∀ s ∈ ([0, 0, 20] : List Int), 0 ≤ s) ∧
    ∀ seq, List.Subperm seq (([121, 130, 135] : List Int).zip [0, 0, 20]) → canDefeat 128 seq →
      (seq.length : Int) ≤ Defeating 3 128 [121, 130, 135] [0, 0, 20] :=
  ⟨by decide, (defeating_optimal 3 128 [121, 130, 135] [0, 0, 20] (by decide) (by decide)
    (by decide)).2.1⟩

end Defeat

/-! ## Theorems: `Solution::ArrayGeneration` (src/2.cpp) -/

namespace ArrayGen

theorem getD_set (l : List Int) (i j : Nat) (a : Int) :
    (l.set i a).getD j 0 = if i = j ∧ i < l.length then a else l.getD j 0 := by
  simp only [List.getD_eq_getElem?_getD, List.getElem?_set]
  by_cases h : i = j
  · subst h
    by_cases h2 : i < l.length
    · simp [h2]
    · simp [h2]
      rw [List.getElem?_eq_none (by omega)]
      rfl
  · simp [h]

theorem genStep_length (n : Nat) (ans : List Int) (i : Nat) :
    (genStep n ans i).length = ans.length := by
  unfold genStep
  split_ifs <;> simp

theorem genStep_inv (n k : Nat) (ans : List Int) (h : GenInv n k ans) :
    GenInv n (k + 1) (genStep n ans (k + 1)) := by
  obtain ⟨hlen, h0, h1, hrec⟩ := h
  have key : ∀ j, j ≤ 2 * k + 1 → (genStep n ans (k + 1)).getD j 0 = ans.getD j 0 := by
    intro j hj
    unfold genStep
    split_ifs <;>
      (simp only [getD_set]
       try rw [if_neg (by omega)]
       try rw [if_neg (by omega)])
  have k1 : 2 * (k + 1) ≤ n →
      (genStep n ans (k + 1)).getD (2 * (k + 1)) 0 = ans.getD (k + 1) 0 := by
    intro hle
    unfold genStep
    rw [if_pos hle]
    split_ifs
    · rw [getD_set, if_neg (by omega), getD_set, if_pos ⟨rfl, by omega⟩]
    · rw [getD_set, if_pos ⟨rfl, by omega⟩]
  have k2 : 2 * (k + 1) + 1 ≤ n →
      (genStep n ans (k + 1)).getD (2 * (k + 1) + 1) 0 =
        ans.getD (k + 1) 0 + (genStep n ans (k + 1)).getD (k + 1 + 1) 0 := by
    intro hle
    unfold genStep
    rw [if_pos (by omega : 2 * (k + 1) ≤ n), if_pos hle]
    rw [getD_set, if_pos ⟨rfl, by simp; omega⟩, getD_set (List.set _ _ _) _ (k + 1 + 1),
      if_neg (by omega), getD_set, if_neg (by omega)]
  refine ⟨by rw [genStep_length]; exact hlen, by rw [key 0 (by omega)]; exact h0,
    by rw [key 1 (by omega)]; exact h1, ?_⟩
  intro j hj1 hjk
  by_cases hj : j ≤ k
  · obtain ⟨a, b⟩ := hrec j hj1 hj
    constructor
    · intro hle
      rw [key _ (by omega), key _ (by omega)]
      exact a hle
    · intro hle
      rw [key _ (by omega), key _ (by omega), key _ (by omega)]
      exact b hle
  · have hjeq : j = k + 1 := by omega
    subst hjeq
    constructor
    · intro hle
      rw [k1 hle, key _ (by omega)]
    · intro hle
      rw [k2 hle, key (k + 1) (by omega)]

theorem foldl_inv (n : Nat) (init : List Int) (h : GenInv n 0 init) (k : Nat) :
    GenInv n k ((List.range' 1 k).foldl (genStep n) init) := by
  induction k with
  | zero => simpa using h
  | succ k ih =>
    rw [List.range'_1_concat, List.foldl_append]
    simp only [List.foldl_cons, List.foldl_nil]
    rw [Nat.add_comm 1 k]
    exact genStep_inv n k _ ih

/-- C20: `ArrayGeneration n` has length `n + 1`, starts with `0` and, for
`n ≥ 1`, `1`, and its final values satisfy `ans[2i] = ans[i]` and
`ans[2i+1] = ans[i] + ans[i+1]` for every `i ≥ 1` whose left-hand index is at
most `n`; for `n = 7` it is `[0,1,1,2,1,3,2,3]`. -/
theorem arrayGeneration_spec (n : Nat) :
    (ArrayGeneration n).length = n + 1 ∧
    (ArrayGeneration n)[0]? = some 0 ∧
    (1 ≤ n → (ArrayGeneration n)[1]? = some 1) ∧
    (∀ i, 1 ≤ i →
      (2 * i ≤ n → (ArrayGeneration n).getD (2 * i) 0 = (ArrayGeneration n).getD i 0) ∧
      (2 * i + 1 ≤ n → (ArrayGeneration n).getD (2 * i + 1) 0 =
        (ArrayGeneration n).getD i 0 + (ArrayGeneration n).getD (i + 1) 0)) ∧
    ArrayGeneration 7 = [0, 1, 1, 2, 1, 3, 2, 3] := by
  have main : n ≠ 0 → GenInv n (n / 2) (ArrayGeneration n) := by
    intro hn
    unfold ArrayGeneration
    simp only [if_neg hn]
    apply foldl_inv
    refine ⟨by simp, ?_, ?_, ?_⟩
    · rw [getD_set, if_neg (by omega)]; simp
    · rw [getD_set, if_pos ⟨rfl, by simp; omega⟩]
    · intro j h1 h2; omega
  by_cases hn : n = 0
  · subst hn
    refine ⟨by decide, by decide, by intro h; omega, ?_, by decide⟩
    intro i hi
    constructor <;> intro h <;> omega
  · obtain ⟨hlen, h0, h1, hrec⟩ := main hn
    refine ⟨hlen, ?_, ?_, ?_, by decide⟩
    · rw [List.getD_eq_getElem?_getD] at h0
      have : 0 < (ArrayGeneration n).length := by omega
      rw [List.getElem?_eq_getElem this] at h0 ⊢
      simpa using h0
    · intro _
      rw [List.getD_eq_getElem?_getD] at h1
      have : 1 < (ArrayGeneration n).length := by omega
      rw [List.getElem?_eq_getElem this] at h1 ⊢
      simpa using h1
    · intro i hi
      constructor
      · intro hle; exact (hrec i hi (by omega)).1 hle
      · intro hle; exact (hrec i hi (by omega)).2 hle

end ArrayGen
